import Mathlib

/-!
# Verification of the NotebookLM-clone retrieval-and-citation engine

Shallow embedding of the core retrieval/citation logic of the repository
(`src/frontend/app/lib/query-analyzer.ts`, `document-search.ts`,
`stream-handler.ts`, `src/app/lib/query-cache.ts`) together with proofs
about the specified properties.

Conventions of the embedding:
* JavaScript strings are modelled as `List Char` (with `String` wrappers at
  the API boundary where convenient).
* JavaScript's `\s` class is modelled by the standard ASCII whitespace
  characters (space, tab, newline, carriage return, vertical tab, form feed).
* External capabilities (the SQL chunk store, the generation model, the
  embedding model, `JSON.parse`) are passed in as explicit function
  parameters, mirroring §6 of the design: the engine consumes them as
  abstract capabilities.
* Machine numbers appearing here are small non-negative integers (string
  lengths, word counts, limits, timestamps); they are modelled as `Nat`/`Int`.
-/

namespace NotebookLm

/-- JS `\s` (restricted to the ASCII range): space, tab, LF, CR, VT, FF. -/
def isWsJS (c : Char) : Bool :=
  c = ' ' || c = '\t' || c = '\n' || c = '\r' || c = '\x0b' || c = '\x0c'

/-- JS `str.split(/\s+/)` on a character list: cut at maximal runs of
whitespace, keeping the (possibly empty) pieces before the first run and
after the last run, exactly as JavaScript does
(`" a ".split(/\s+/) = ["", "a", ""]`, `"".split(/\s+/) = [""]`).
A whitespace character opens a new empty piece only when it ends a
whitespace run. -/
def jsSplitWs : List Char → List (List Char)
  | [] => [[]]
  | c :: rest =>
    if isWsJS c then
      match rest with
      | d :: _ => if isWsJS d then jsSplitWs rest else [] :: jsSplitWs rest
      | [] => [] :: jsSplitWs rest
    else
      match jsSplitWs rest with
      | t :: ts => (c :: t) :: ts
      | [] => [[c]]

/-- JS `str.trim()`: drop ASCII whitespace on both ends. -/
def jsTrim (cs : List Char) : List Char :=
  ((cs.dropWhile isWsJS).reverse.dropWhile isWsJS).reverse

/-- Executable contiguous-substring test on lists (`pat` occurs inside
`s`). -/
def listInfix (pat s : List Char) : Bool :=
  match s with
  | [] => pat.isEmpty
  | _ :: rest => pat.isPrefixOf s || listInfix pat rest

/-- Case-insensitive substring test: `pat` occurs (as a contiguous run)
inside `s`, ignoring case.  This models a JS `/literal/i.test(s)` for a
regex with no metacharacters. -/
def containsCI (s pat : String) : Bool :=
  listInfix (pat.toList.map Char.toLower) (s.toList.map Char.toLower)

/-- Case-sensitive substring test (JS `String.prototype.includes`). -/
def containsSub (s pat : String) : Bool :=
  listInfix pat.toList s.toList

/-! ## Query Analyzer (`src/frontend/app/lib/query-analyzer.ts`) -/

/-- The result shape of `analyzeQuery`.  In TypeScript every field except
`isComplex` is optional; absent fields are modelled as `none`. -/
structure QueryAnalysis where
  isComplex : Bool
  subQueries : Option (List String) := none
  focusRecent : Option Bool := none
  isAboutLatestFile : Option Bool := none
  isImageSpecific : Option Bool := none
  hasEntityReference : Option Bool := none
  shouldPrioritizeImages : Option Bool := none
  isFollowUp : Option Bool := none
  expandedTerms : Option (List String) := none
  needsSpecificQuotes : Option Bool := none
  isAnalysisQuery : Option Bool := none
  focusStandaloneOnly : Option Bool := none
deriving DecidableEq, Repr

/-- `SmartKeywords` as produced by `extractSmartKeywords`. -/
structure SmartKeywords where
  entities : List String
  numbers : List String
  concepts : List String
  all : List String
deriving DecidableEq, Repr

/-- The ordered intent table of `QueryAnalyzer.queryIntents`.  Every pattern
in the source is an alternation of literal substrings (tested with the `i`
flag and no anchors), so each regex is modelled by the list of its literal
alternatives; `SPECIFIC_CONTENT`'s group product is expanded. -/
def queryIntents : List (String × List String) :=
  [("SPECIFIC_CONTENT",
     ["what is in", "what is on", "what is about",
      "what does it say in", "what does it say on", "what does it say about",
      "what says in", "what says on", "what says about",
      "content of", "what\x27s in"]),
   ("VISUAL_DESCRIPTION",
     ["describe", "show", "picture", "image", "looks like", "appears", "visual"]),
   ("FACTUAL_LOOKUP",
     ["who", "what", "when", "where", "how much", "how many", "which"]),
   ("COMPARISON",
     ["compare", "difference", "versus", "vs", "between", "similar"]),
   ("SUMMARY",
     ["summarize", "overview", "main points", "key", "summary"]),
   ("FOLLOW_UP",
     ["he", "she", "it", "that", "this", "they"])]

/-- One intent pattern matches iff some literal alternative occurs in the
query (case-insensitively). -/
def matchesIntent (query : String) (lits : List String) : Bool :=
  lits.any (containsCI query)

/-- `QueryAnalyzer.detectIntent`: first matching category of the ordered
table wins, `"GENERAL"` if none match. -/
def detectIntent (query : String) : String :=
  match queryIntents.find? (fun e => matchesIntent query e.2) with
  | some e => e.1
  | none => "GENERAL"

/-- The fixed standalone-focus pattern of `analyzeQuery`:
`/this file|this image|latest|attached/i.test(message)`. -/
def isStandaloneQuery (message : String) : Bool :=
  ["this file", "this image", "latest", "attached"].any (containsCI message)

/-- JS `resp.replace(/```json\n|```/g, '')`: delete every occurrence of
"```json\n" (tried first at each position) or "```". -/
def stripCodeFences (cs : List Char) : List Char :=
  if h8 : ("```json\n".toList).isPrefixOf cs then
    stripCodeFences (cs.drop 8)
  else if h3 : ("```".toList).isPrefixOf cs then
    stripCodeFences (cs.drop 3)
  else
    match cs with
    | [] => []
    | c :: rest => c :: stripCodeFences rest
termination_by cs.length
decreasing_by
  · have := (List.isPrefixOf_iff_prefix.mp h8).length_le
    simp at this ⊢
    omega
  · have := (List.isPrefixOf_iff_prefix.mp h3).length_le
    simp at this ⊢
    omega
  · simp

/-- The text that `analyzeQuery` hands to `JSON.parse`:
`(analysisResult.response?.text() || '{}').replace(/```json\n|```/g, '').trim()`.
An absent/empty response text falls back to `"\x7b\x7d"` (the two-character
JSON empty-object string). -/
def normalizedModelText (resp : String) : String :=
  let jsonResponse := if resp = "" then String.mk ['{', '}'] else resp
  String.mk (jsTrim (stripCodeFences jsonResponse.toList))

/-- `QueryAnalyzer.analyzeQuery`, with the two external effects as
parameters: `modelResponse` is the text returned by the generation model
(`none` models the model call being unavailable or rejecting), and
`parseJson` models `JSON.parse` into the typed analysis record (`none`
models a parse exception).  The conversation-context prompt assembly only
feeds the model and cannot influence the returned record beyond
`modelResponse`, so it is not modelled further. -/
def analyzeQuery (message : String) (modelResponse : Option String)
    (parseJson : String → Option QueryAnalysis) : QueryAnalysis :=
  let isStandalone := isStandaloneQuery message
  let analysis : QueryAnalysis :=
    match modelResponse with
    | none => { isComplex := false }
    | some resp =>
      match parseJson (normalizedModelText resp) with
      | none => { isComplex := false }
      | some a => a
  { analysis with focusStandaloneOnly := some isStandalone }

/-! ### C10: `detectIntent` fires `FOLLOW_UP` on substrings of larger words -/

/-- **C10.** `detectIntent` tests its category regexes without word
boundaries, so the `FOLLOW_UP` pattern fires when one of its alternatives
occurs as a substring of a larger word: every query matching none of the
first five category patterns but containing the letter sequence `"he"`,
`"it"`, `"that"`, `"this"` or `"they"` anywhere is classified `FOLLOW_UP`
rather than `GENERAL`. -/
theorem detectIntent_followUp_substring (q : String)
    (h1 : matchesIntent q
      ["what is in", "what is on", "what is about",
       "what does it say in", "what does it say on", "what does it say about",
       "what says in", "what says on", "what says about",
       "content of", "what\x27s in"] = false)
    (h2 : matchesIntent q
      ["describe", "show", "picture", "image", "looks like", "appears", "visual"] = false)
    (h3 : matchesIntent q
      ["who", "what", "when", "where", "how much", "how many", "which"] = false)
    (h4 : matchesIntent q
      ["compare", "difference", "versus", "vs", "between", "similar"] = false)
    (h5 : matchesIntent q
      ["summarize", "overview", "main points", "key", "summary"] = false)
    (h6 : (["he", "it", "that", "this", "they"].any (containsCI q)) = true) :
    detectIntent q = "FOLLOW_UP" := by
  have h6' : matchesIntent q ["he", "she", "it", "that", "this", "they"] = true := by
    obtain ⟨p, hp, hc⟩ := List.any_eq_true.mp h6
    exact List.any_eq_true.mpr ⟨p, by fin_cases hp <;> simp, hc⟩
  simp [detectIntent, queryIntents, List.find?, h1, h2, h3, h4, h5, h6']

/-- Witness for C10 at the concrete query `"weather forecast"` (the pattern
`"he"` occurs inside the word `"weather"`). -/
theorem detectIntent_followUp_substring_witness :
    detectIntent "weather forecast" = "FOLLOW_UP" :=
  detectIntent_followUp_substring "weather forecast"
    (by decide) (by decide) (by decide) (by decide) (by decide) (by decide)

example : detectIntent "describe the image" = "VISUAL_DESCRIPTION" := by decide

example : detectIntent "who is the author" = "FACTUAL_LOOKUP" := by decide

/-! ### C5: `analyzeQuery` never throws and always overrides
`focusStandaloneOnly` -/

/-- **C5.** For every query, `analyzeQuery` degrades to
`{ isComplex := false }` (all other fields absent) when the generation
model call is unavailable/rejects or when its output fails to parse as
JSON, and in every case — success or fallback — the returned record's
`focusStandaloneOnly` equals the result of testing the raw query against
the fixed pattern list (`"this file"`, `"this image"`, `"latest"`,
`"attached"`), overriding whatever the model returned for that field. -/
theorem analyzeQuery_fallback_and_override :
    (∀ (message : String) (parse : String → Option QueryAnalysis),
       analyzeQuery message none parse =
         { isComplex := false,
           focusStandaloneOnly := some (isStandaloneQuery message) }) ∧
    (∀ (message resp : String) (parse : String → Option QueryAnalysis),
       parse (normalizedModelText resp) = none →
       analyzeQuery message (some resp) parse =
         { isComplex := false,
           focusStandaloneOnly := some (isStandaloneQuery message) }) ∧
    (∀ (message : String) (mr : Option String)
       (parse : String → Option QueryAnalysis),
       (analyzeQuery message mr parse).focusStandaloneOnly =
         some (isStandaloneQuery message)) := by
  refine ⟨fun message parse => rfl, fun message resp parse h => ?_, ?_⟩
  · simp [analyzeQuery, h]
  · intro message mr parse
    cases mr with
    | none => rfl
    | some resp => cases parse (normalizedModelText resp) <;> rfl

/-- Witness for C5: a rejecting parse on the query
`"summarize the attached file"` yields the fallback record with
`focusStandaloneOnly = true` (the query contains `"attached"`). -/
theorem analyzeQuery_fallback_and_override_witness :
    analyzeQuery "summarize the attached file" (some "not json") (fun _ => none) =
      { isComplex := false, focusStandaloneOnly := some true } := by
  have h := analyzeQuery_fallback_and_override.2.1
    "summarize the attached file" "not json" (fun _ => none) rfl
  rw [h]
  have : isStandaloneQuery "summarize the attached file" = true := by decide
  rw [this]

/-! ## Document Search Service (`src/frontend/app/lib/document-search.ts`) -/

/-- A stored chunk row as selected by every search query:
`SELECT c.content, c.page_number, c.document_id`. -/
structure Chunk where
  content : String
  page_number : Int
  document_id : String
deriving DecidableEq, Repr

/-- One page of a structured blueprint (`page_dimensions`/`content_blocks`
are opaque to the engine and not modelled). -/
structure PageBlueprint where
  page_number : Int
  combined_markdown : String
deriving DecidableEq, Repr

/-- The non-array variant of `BlueprintDocument.blueprint`
(an image / plain-text document carrying a blob reference). -/
structure SimpleBlueprint where
  type : String
  blob_url : String
deriving DecidableEq, Repr

/-- A parent-document (blueprint) record:
`SELECT id, source_file, blueprint, pdf_url FROM documents`. -/
structure BlueprintDocument where
  id : String
  source_file : String
  blueprint : Sum (List PageBlueprint) SimpleBlueprint
  pdf_url : Option String
deriving DecidableEq, Repr

/-- The external chunk/document store consumed by `searchDocuments`
(§6: queries by page number, by vector distance — the embedding call and
the SQL similarity query are collapsed into one capability keyed by the
query text —, by content substring, scoped by document; plus parent
document fetch, which may fail).  Each field models one SQL query shape of
the source; the second argument of the first four is the optional
document-id restriction from the dynamic `WHERE` clause. -/
structure ChunkStore where
  latestDocId : Option String
  pageChunks : List Int → Option String → List Chunk
  vectorChunks : String → Option String → Nat → List Chunk
  keywordChunks : List String → Option String → List Chunk
  latestDocVectorChunks : String → String → Nat → List Chunk
  fetchDoc : String → Except String (List BlueprintDocument)

/-- The dedup key of step 7: `c.content === chunk.content &&
c.page_number === chunk.page_number` (document identity is *not* part of
the key). -/
def sameChunkKey (a b : Chunk) : Bool :=
  a.content == b.content && a.page_number == b.page_number

/-- JS `arr.filter((x, index, self) => index === self.findIndex(p x))`:
keep exactly the elements whose index equals the first index carrying the
same key, i.e. the first occurrence of every key, preserving order.
(Indices are supplied by zipping with `range`.) -/
def firstOccurrences {α : Type} (keyEq : α → α → Bool) (l : List α) : List α :=
  (((List.range l.length).zip l).filter
    (fun p => l.findIdx (fun c => keyEq c p.2) == p.1)).map Prod.snd

/-- Step 7 of `searchDocuments`: collapse the pool to chunks unique by
`(content, page_number)`, first occurrence wins. -/
def dedupChunks (l : List Chunk) : List Chunk :=
  firstOccurrences sameChunkKey l

/-- JS `[...new Set(xs)]`: first-occurrence dedup preserving order. -/
def jsSetOfList (xs : List String) : List String :=
  firstOccurrences (fun a b => a == b) xs

/-- `const searchLimit = 10`. -/
def searchLimit : Nat := 10

/-- Step 3 of `searchDocuments`: multi-query for a complex analysis with
sub-queries, otherwise the single raw message. -/
def searchQueries (analysis : QueryAnalysis) (message : String) : List String :=
  match analysis.subQueries with
  | some qs => if analysis.isComplex && qs.length > 0 then qs else [message]
  | none => [message]

/-- The per-semantic-search row cap of step 4:
`LIMIT ${Math.floor(searchLimit / searchQueries.length)}` (floor division). -/
def semanticSearchLimit (queries : List String) : Nat :=
  searchLimit / queries.length

/-- Step 8 of `searchDocuments`: fetch all parent documents with
`Promise.all` and flatten the row sets.  `List.mapM` over `Except` has
exactly the `Promise.all` failure semantics: if any fetch fails the whole
resolution fails (no partial result); the parallel fan-out itself has no
observable effect on the value. -/
def resolveBlueprints (fetchDoc : String → Except String (List BlueprintDocument))
    (documentIds : List String) : Except String (List BlueprintDocument) :=
  match documentIds.mapM fetchDoc with
  | Except.error e => Except.error e
  | Except.ok results => Except.ok results.flatten

/-- Steps 1–6 of `searchDocuments`: the shared `allChunks` pool, filled by
the strategies in the fixed source order (page lookup, semantic
single/multi, keyword, latest-file focus).  Step 1's dynamic `WHERE` clause
(the `isImageSpecific` branch is commented out in the source;
`focusStandaloneOnly` restricts to the latest document) is threaded through
as the optional document restriction. -/
def pooledChunks (store : ChunkStore) (message : String)
    (analysis : QueryAnalysis) (smartKeywords : SmartKeywords)
    (pageNumbers : List Int) : List Chunk :=
  -- 1. dynamic WHERE clause
  let docRestrict : Option String :=
    if analysis.focusStandaloneOnly = some true then store.latestDocId else none
  -- 2. direct lookup for explicit page numbers
  let pageChunksRes : List Chunk :=
    if pageNumbers.length > 0 then store.pageChunks pageNumbers docRestrict else []
  -- 3./4. semantic search (multi-query vs. single query)
  let queries := searchQueries analysis message
  let semChunks : List Chunk :=
    queries.flatMap (fun q => store.vectorChunks q docRestrict (semanticSearchLimit queries))
  -- 5. keyword search for specific quotes
  let kwChunks : List Chunk :=
    if analysis.needsSpecificQuotes = some true && smartKeywords.all.length > 0 then
      store.keywordChunks smartKeywords.all docRestrict
    else []
  -- 6. "about latest file" focus (top 3 closest chunks of the latest doc)
  let latestChunks : List Chunk :=
    if analysis.isAboutLatestFile = some true then
      match store.latestDocId with
      | some docId => store.latestDocVectorChunks message docId 3
      | none => []
    else []
  pageChunksRes ++ semChunks ++ kwChunks ++ latestChunks

/-- `DocumentSearchService.searchDocuments`: pool, dedup, limit, blueprint
resolution. -/
def searchDocuments (store : ChunkStore) (message : String)
    (analysis : QueryAnalysis) (smartKeywords : SmartKeywords)
    (pageNumbers : List Int) :
    Except String (List Chunk × List BlueprintDocument) :=
  -- 7. de-duplicate and limit
  let uniqueChunks := dedupChunks (pooledChunks store message analysis smartKeywords pageNumbers)
  let retrievedChunks := uniqueChunks.take searchLimit
  if retrievedChunks.isEmpty then Except.ok ([], [])
  else
    -- 8. blueprints of the distinct parent documents
    let documentIds := jsSetOfList (retrievedChunks.map (fun c => c.document_id))
    if documentIds.isEmpty then Except.ok (retrievedChunks, [])
    else
      match resolveBlueprints store.fetchDoc documentIds with
      | Except.error e => Except.error e
      | Except.ok bps => Except.ok (retrievedChunks, bps)

/-! ### Properties of first-occurrence deduplication -/

theorem firstOccurrences_nil {α : Type} (k : α → α → Bool) :
    firstOccurrences k [] = [] := rfl

theorem firstOccurrences_cons {α : Type} (k : α → α → Bool)
    (hrefl : ∀ a, k a a = true) (a : α) (l : List α) :
    firstOccurrences k (a :: l) =
      a :: (((List.range l.length).zip l).filter
        (fun p => !(k a p.2) && (l.findIdx (fun c => k c p.2) == p.1))).map Prod.snd := by
  unfold firstOccurrences
  have hzip : (List.range (a :: l).length).zip (a :: l) =
      (0, a) :: ((List.range l.length).zip l).map (Prod.map (· + 1) id) := by
    rw [List.length_cons, List.range_succ_eq_map, List.zip_cons_cons,
      List.zip_map_left]
  have h0 : (List.findIdx (fun c => k c a) (a :: l) == 0) = true := by
    rw [List.findIdx_cons]
    simp [hrefl a]
  rw [hzip, List.filter_cons]
  simp only [h0, if_true]
  simp only [List.map_cons]
  congr 1
  rw [List.filter_map, List.map_map]
  have hfun : ∀ p ∈ (List.range l.length).zip l,
      ((fun q : Nat × α => List.findIdx (fun c => k c q.2) (a :: l) == q.1) ∘
        Prod.map (· + 1) id) p =
      (!(k a p.2) && (l.findIdx (fun c => k c p.2) == p.1)) := by
    intro p _
    simp only [Function.comp, Prod.map, id]
    rw [List.findIdx_cons]
    cases hk : k a p.2 <;> simp [hk]
  rw [List.filter_congr hfun]
  apply List.map_congr_left
  intro p _
  cases p
  rfl

theorem snd_mem_of_mem_zip_range {α : Type} {l : List α} {p : Nat × α}
    (hp : p ∈ (List.range l.length).zip l) : p.2 ∈ l := by
  obtain ⟨i, x⟩ := p
  exact (List.of_mem_zip hp).2

theorem firstOccurrences_pairwise {α : Type} (k : α → α → Bool)
    (hcongr : ∀ a b c, k a b = true → k c a = k c b) (l : List α) :
    (firstOccurrences k l).Pairwise (fun x y => k x y = false) := by
  unfold firstOccurrences
  rw [List.pairwise_map]
  have henum : ((List.range l.length).zip l).Pairwise (fun p q => p.1 < q.1) := by
    have h1 : (((List.range l.length).zip l).map Prod.fst).Pairwise (· < ·) := by
      rw [List.map_fst_zip _ _ (by simp)]
      exact List.pairwise_lt_range _
    exact List.pairwise_map.mp h1
  have hfil := henum.filter
    (fun p => l.findIdx (fun c => k c p.2) == p.1)
  refine hfil.imp_of_mem ?_
  intro p q hp hq hlt
  by_contra hk
  have hk' : k p.2 q.2 = true := by
    revert hk
    cases k p.2 q.2 <;> simp
  have hp' := (List.mem_filter.mp hp).2
  have hq' := (List.mem_filter.mp hq).2
  have hfunx : (fun c => k c p.2) = (fun c => k c q.2) :=
    funext (fun c => hcongr _ _ c hk')
  rw [hfunx] at hp'
  rw [beq_iff_eq] at hp' hq'
  omega

theorem firstOccurrences_of_pairwise {α : Type} (k : α → α → Bool)
    (hrefl : ∀ a, k a a = true) (l : List α)
    (h : l.Pairwise fun x y => k x y = false) :
    firstOccurrences k l = l := by
  induction l with
  | nil => rfl
  | cons a t ih =>
    rw [firstOccurrences_cons k hrefl]
    have ht := (List.pairwise_cons.mp h).1
    have ht2 := (List.pairwise_cons.mp h).2
    congr 1
    have hcond : ∀ p ∈ (List.range t.length).zip t,
        (!(k a p.2) && (t.findIdx (fun c => k c p.2) == p.1)) =
        (t.findIdx (fun c => k c p.2) == p.1) := by
      intro p hp
      rw [ht _ (snd_mem_of_mem_zip_range hp)]
      simp
    rw [List.filter_congr hcond]
    exact ih ht2

theorem firstOccurrences_idem {α : Type} (k : α → α → Bool)
    (hrefl : ∀ a, k a a = true)
    (hcongr : ∀ a b c, k a b = true → k c a = k c b) (l : List α) :
    firstOccurrences k (firstOccurrences k l) = firstOccurrences k l :=
  firstOccurrences_of_pairwise k hrefl _ (firstOccurrences_pairwise k hcongr l)

theorem firstOccurrences_sublist {α : Type} (k : α → α → Bool) (l : List α) :
    (firstOccurrences k l).Sublist l := by
  unfold firstOccurrences
  have h1 := List.filter_sublist
    (p := fun p : Nat × α => l.findIdx (fun c => k c p.2) == p.1)
    ((List.range l.length).zip l)
  have h2 := h1.map Prod.snd
  rwa [List.map_snd_zip _ _ (by simp)] at h2

theorem sameChunkKey_refl (a : Chunk) : sameChunkKey a a = true := by
  simp [sameChunkKey]

theorem sameChunkKey_congr (a b c : Chunk) (h : sameChunkKey a b = true) :
    sameChunkKey c a = sameChunkKey c b := by
  simp only [sameChunkKey, Bool.and_eq_true, beq_iff_eq] at h
  simp only [sameChunkKey, h.1, h.2]

/-! ### C6: deduplication key, idempotence, order, and result bound -/

/-- Two chunks agreeing on `(content, page_number)` but stored under
different parent documents: dedup must collapse them. -/
def chunkA : Chunk := ⟨"alpha", 1, "doc-1"⟩

/-- See `chunkA`. -/
def chunkB : Chunk := ⟨"alpha", 1, "doc-2"⟩

/-- A trivial analysis record (non-complex, no optional flags). -/
def simpleAnalysis : QueryAnalysis := { isComplex := false }

/-- Empty smart-keyword record. -/
def emptyKeywords : SmartKeywords := ⟨[], [], [], []⟩

/-- A store in which every query returns nothing. -/
def emptyStore : ChunkStore :=
  ⟨none, fun _ _ => [], fun _ _ _ => [], fun _ _ => [],
   fun _ _ _ => [], fun _ => Except.ok []⟩

/-- **C6.** The dedup step of `searchDocuments` collapses the pooled chunk
list to chunks unique by the key `(content, page_number)` — not by chunk
identity or `document_id` — preserving first-seen order (the result is a
sublist of the pool), it is idempotent, and the chunk list returned by
`searchDocuments` never exceeds the search limit of 10. -/
theorem dedupChunks_key_idempotent_and_limit :
    (∀ l : List Chunk, dedupChunks (dedupChunks l) = dedupChunks l) ∧
    (∀ l : List Chunk, (dedupChunks l).Sublist l) ∧
    (∀ l : List Chunk,
       (dedupChunks l).Pairwise (fun a b => sameChunkKey a b = false)) ∧
    dedupChunks [chunkA, chunkB] = [chunkA] ∧
    (∀ store message analysis kw pageNumbers result,
       searchDocuments store message analysis kw pageNumbers =
         Except.ok result →
       result.1.length ≤ searchLimit) := by
  refine ⟨fun l => firstOccurrences_idem _ sameChunkKey_refl sameChunkKey_congr l,
    fun l => firstOccurrences_sublist _ l,
    fun l => firstOccurrences_pairwise _ sameChunkKey_congr l,
    by decide, ?_⟩
  intro store message analysis kw pageNumbers result h
  simp only [searchDocuments] at h
  split at h
  · injection h with h2
    subst h2
    simp
  · split at h
    · injection h with h2
      subst h2
      simpa using List.length_take_le _ _
    · split at h
      · exact absurd h (by simp)
      · injection h with h2
        subst h2
        simpa using List.length_take_le _ _

/-- Witness for C6's final conjunct at the empty store (which returns the
empty chunk list). -/
theorem dedupChunks_key_idempotent_and_limit_witness :
    (([], []) : List Chunk × List BlueprintDocument).1.length ≤ searchLimit :=
  dedupChunks_key_idempotent_and_limit.2.2.2.2 emptyStore "q" simpleAnalysis
    emptyKeywords [] ([], []) rfl

/-! ### C3: the per-sub-query semantic cap is `floor`, not `ceil` -/

/-- A complex analysis with three sub-queries. -/
def analysisC3 : QueryAnalysis :=
  { isComplex := true, subQueries := some ["a", "b", "c"] }

/-- **C3 counterexample.** With `limit = 10` and `n = 3` sub-queries the
code caps each per-sub-query semantic search at
`Math.floor(10 / 3) = 3` rows, not `ceil(10 / 3) = 4` as claimed. -/
theorem semanticSearchLimit_not_ceil :
    searchQueries analysisC3 "m" = ["a", "b", "c"] ∧
    semanticSearchLimit (searchQueries analysisC3 "m") = 3 ∧
    (searchLimit + (searchQueries analysisC3 "m").length - 1) /
      (searchQueries analysisC3 "m").length = 4 := by
  refine ⟨rfl, rfl, rfl⟩

/-- **C3 (amended).** When the analysis is complex with `n ≥ 1` sub-queries,
each per-sub-query semantic search is capped at `floor(limit / n)` rows
(with `limit = 10`); otherwise the single semantic search for the raw
message is capped at the full limit. -/
theorem semanticSearchLimit_floor (analysis : QueryAnalysis) (message : String) :
    (∀ qs, analysis.subQueries = some qs → analysis.isComplex = true →
       qs.length > 0 →
       searchQueries analysis message = qs ∧
       semanticSearchLimit (searchQueries analysis message) =
         searchLimit / qs.length) ∧
    ((analysis.isComplex = false ∨ analysis.subQueries = none ∨
        analysis.subQueries = some []) →
       searchQueries analysis message = [message] ∧
       semanticSearchLimit (searchQueries analysis message) = searchLimit) := by
  constructor
  · intro qs hqs hc hl
    have h1 : searchQueries analysis message = qs := by
      simp [searchQueries, hqs, hc, hl]
    refine ⟨h1, ?_⟩
    rw [h1]
    rfl
  · intro hcase
    have h1 : searchQueries analysis message = [message] := by
      rcases hcase with h | h | h
      · simp [searchQueries, h]
        cases analysis.subQueries <;> simp
      · simp [searchQueries, h]
      · simp [searchQueries, h]
    refine ⟨h1, ?_⟩
    rw [h1]
    simp [semanticSearchLimit, searchLimit]

/-- Witness for C3 (amended): the complex three-sub-query analysis gets a
cap of `10 / 3 = 3`; the simple analysis gets the full limit. -/
theorem semanticSearchLimit_floor_witness :
    (searchQueries analysisC3 "m" = ["a", "b", "c"] ∧
      semanticSearchLimit (searchQueries analysisC3 "m") = searchLimit / 3) ∧
    (searchQueries simpleAnalysis "m" = ["m"] ∧
      semanticSearchLimit (searchQueries simpleAnalysis "m") = searchLimit) := by
  constructor
  · have h := (semanticSearchLimit_floor analysisC3 "m").1 ["a", "b", "c"] rfl rfl
      (by decide)
    exact ⟨h.1, h.2⟩
  · exact (semanticSearchLimit_floor simpleAnalysis "m").2 (Or.inl rfl)

/-! ### C2: `Promise.all` blueprint resolution is all-or-nothing -/

/-- Blueprint record of document `d1` for the C2 counterexample. -/
def bpD1 : BlueprintDocument := ⟨"d1", "file1.pdf", Sum.inl [], none⟩

/-- A store whose semantic search surfaces chunks of two documents, where
the metadata fetch succeeds for `d1` and fails for `d2`. -/
def storeC2 : ChunkStore :=
  { latestDocId := none
    pageChunks := fun _ _ => []
    vectorChunks := fun _ _ _ => [⟨"alpha text", 1, "d1"⟩, ⟨"beta text", 2, "d2"⟩]
    keywordChunks := fun _ _ => []
    latestDocVectorChunks := fun _ _ _ => []
    fetchDoc := fun id => if id == "d1" then Except.ok [bpD1] else Except.error "fetch failed" }

/-- **C2 counterexample.** The parent-document fetches run through
`Promise.all`: with two surviving documents where `d1` resolves and `d2`'s
fetch fails, the whole `searchDocuments` call rejects — the result does
*not* contain the blueprint of `d1`, contradicting the claimed partial
results. -/
theorem searchDocuments_no_partial_blueprints :
    storeC2.fetchDoc "d1" = Except.ok [bpD1] ∧
    storeC2.fetchDoc "d2" = Except.error "fetch failed" ∧
    searchDocuments storeC2 "q" simpleAnalysis emptyKeywords [] =
      Except.error "fetch failed" :=
  ⟨rfl, rfl, rfl⟩

theorem mapM_error_of_mem {β : Type} (fetch : String → Except String β)
    (ids : List String) (id : String) (e : String)
    (hid : id ∈ ids) (he : fetch id = Except.error e) :
    ∃ e', ids.mapM fetch = Except.error e' := by
  induction ids with
  | nil => cases hid
  | cons a rest ih =>
    rw [List.mapM_cons]
    cases hid with
    | head => rw [he]; exact ⟨e, rfl⟩
    | tail _ hmem =>
      cases ha : fetch a with
      | error e0 => exact ⟨e0, rfl⟩
      | ok v =>
        obtain ⟨e', he'⟩ := ih hmem
        rw [he']
        exact ⟨e', rfl⟩

theorem mapM_ok_of_all {β : Type} (fetch : String → Except String β)
    (ids : List String)
    (h : ∀ id ∈ ids, ∃ rows, fetch id = Except.ok rows) :
    ∃ ress, ids.mapM fetch = Except.ok ress ∧
      ∀ id ∈ ids, ∀ rows, fetch id = Except.ok rows → rows ∈ ress := by
  induction ids with
  | nil => exact ⟨[], rfl, by simp⟩
  | cons a rest ih =>
    obtain ⟨ra, hra⟩ := h a (by simp)
    obtain ⟨ress, hress, hmem⟩ := ih (fun id hid => h id (by simp [hid]))
    refine ⟨ra :: ress, ?_, ?_⟩
    · rw [List.mapM_cons, hra, hress]
      rfl
    · intro id hid rows hrows
      cases hid with
      | head =>
        rw [hra] at hrows
        injection hrows with h2
        subst h2
        exact List.mem_cons_self _ _
      | tail _ hmem2 => exact List.mem_cons_of_mem _ (hmem id hmem2 rows hrows)

/-- **C2 (amended).** The parent-document metadata fetches for the distinct
`document_id`s are issued together via `Promise.all`, whose semantics are
all-or-nothing: when every fetch succeeds the result contains every fetched
blueprint, but a failed fetch for any one document rejects the whole
resolution — no partial blueprint list is produced. -/
theorem resolveBlueprints_all_or_nothing :
    (∀ (fetch : String → Except String (List BlueprintDocument)) ids id e,
       id ∈ ids → fetch id = Except.error e →
       ∃ e', resolveBlueprints fetch ids = Except.error e') ∧
    (∀ (fetch : String → Except String (List BlueprintDocument)) ids,
       (∀ id ∈ ids, ∃ rows, fetch id = Except.ok rows) →
       ∃ bps, resolveBlueprints fetch ids = Except.ok bps ∧
         ∀ id ∈ ids, ∀ rows, fetch id = Except.ok rows →
           ∀ bp ∈ rows, bp ∈ bps) := by
  constructor
  · intro fetch ids id e hid he
    obtain ⟨e', he'⟩ := mapM_error_of_mem fetch ids id e hid he
    refine ⟨e', ?_⟩
    unfold resolveBlueprints
    rw [he']
  · intro fetch ids h
    obtain ⟨ress, hress, hmem⟩ := mapM_ok_of_all fetch ids h
    refine ⟨ress.flatten, ?_, ?_⟩
    · unfold resolveBlueprints
      rw [hress]
    · intro id hid rows hrows bp hbp
      exact List.mem_flatten.mpr ⟨rows, hmem id hid rows hrows, hbp⟩

/-- Witness for C2 (amended) at the concrete C2 store: the failing fetch of
`d2` rejects the resolution of `["d1", "d2"]`, and the all-success
resolution of `["d1"]` contains `d1`'s blueprint. -/
theorem resolveBlueprints_all_or_nothing_witness :
    (∃ e', resolveBlueprints storeC2.fetchDoc ["d1", "d2"] = Except.error e') ∧
    (∃ bps, resolveBlueprints storeC2.fetchDoc ["d1"] = Except.ok bps ∧
       ∀ id ∈ ["d1"], ∀ rows, storeC2.fetchDoc id = Except.ok rows →
         ∀ bp ∈ rows, bp ∈ bps) := by
  constructor
  · exact resolveBlueprints_all_or_nothing.1 storeC2.fetchDoc ["d1", "d2"] "d2"
      "fetch failed" (by simp) rfl
  · exact resolveBlueprints_all_or_nothing.2 storeC2.fetchDoc ["d1"]
      (by intro id hid
          simp only [List.mem_singleton] at hid
          subst hid
          exact ⟨[bpD1], rfl⟩)

/-! ## Embedding cache (`query-cache.ts` / `stream-handler.ts` lines
358–399)

The two module-level JS `Map`s are modelled as insertion-ordered
association lists (JS `Map` iterates keys in insertion order; `set` on an
existing key updates the value in place, keeping the key's position).
`Date.now()` is passed in explicitly as `now`. -/

/-- JS `map.get(k)`. -/
def mapGet {α : Type} (m : List (String × α)) (k : String) : Option α :=
  (m.find? (fun e => e.1 == k)).map Prod.snd

/-- JS `map.set(k, v)`: update in place if present, else append. -/
def mapSet {α : Type} (m : List (String × α)) (k : String) (v : α) :
    List (String × α) :=
  if m.any (fun e => e.1 == k) then
    m.map (fun e => if e.1 == k then (k, v) else e)
  else m ++ [(k, v)]

/-- JS `map.delete(k)`. -/
def mapDelete {α : Type} (m : List (String × α)) (k : String) :
    List (String × α) :=
  m.filter (fun e => !(e.1 == k))

theorem mapGet_map_update {α : Type} (m : List (String × α)) (k : String)
    (v : α) (h : m.any (fun e => e.1 == k) = true) :
    mapGet (m.map (fun e => if e.1 == k then (k, v) else e)) k = some v := by
  induction m with
  | nil => cases h
  | cons e t ih =>
    by_cases he : e.1 = k
    · have he' : (e.1 == k) = true := by simp [he]
      simp only [mapGet, List.map_cons, he', if_true]
      rw [List.find?_cons_of_pos _ (by simp)]
      rfl
    · have he' : (e.1 == k) = false := by simp [he]
      have ht : t.any (fun e => e.1 == k) = true := by
        rw [List.any_cons, he'] at h
        simpa using h
      simp only [mapGet, List.map_cons, he', if_false]
      rw [List.find?_cons_of_neg _ (by simp [he])]
      exact ih ht

theorem mapGet_mapSet_self {α : Type} (m : List (String × α)) (k : String)
    (v : α) : mapGet (mapSet m k v) k = some v := by
  by_cases hq : m.any (fun e => e.1 == k) = true
  · unfold mapSet
    rw [if_pos hq]
    exact mapGet_map_update m k v hq
  · unfold mapSet
    rw [if_neg hq]
    unfold mapGet
    rw [List.find?_append]
    have hq' : m.any (fun e => e.1 == k) = false := by
      cases h2 : m.any (fun e => e.1 == k)
      · rfl
      · exact absurd h2 hq
    have hnone : m.find? (fun e => e.1 == k) = none := by
      rw [List.find?_eq_none]
      intro x hx
      have hx2 := List.any_eq_false.mp hq'
      simp only [beq_iff_eq] at hx2 ⊢
      exact hx2 x hx
    rw [hnone]
    rw [List.find?_cons_of_pos _ (by simp)]
    rfl

theorem mapGet_mapDelete_self {α : Type} (m : List (String × α)) (k : String) :
    mapGet (mapDelete m k) k = none := by
  unfold mapGet mapDelete
  have hnone : (m.filter (fun e => !(e.1 == k))).find? (fun e => e.1 == k) = none := by
    rw [List.find?_eq_none]
    intro x hx
    have h2 := (List.mem_filter.mp hx).2
    simp only [Bool.not_eq_true'] at h2
    simp [h2]
  rw [hnone]
  rfl

theorem mapGet_mapDelete_ne {α : Type} (m : List (String × α)) (k' k : String)
    (h : k' ≠ k) : mapGet (mapDelete m k') k = mapGet m k := by
  unfold mapGet mapDelete
  congr 1
  induction m with
  | nil => rfl
  | cons e t ih =>
    by_cases hk' : e.1 = k'
    · rw [List.filter_cons_of_neg (by simp [hk'])]
      rw [List.find?_cons_of_neg _ (by simp [hk', h])]
      exact ih
    · rw [List.filter_cons_of_pos (by simp [hk'])]
      by_cases hk : e.1 = k
      · rw [List.find?_cons_of_pos _ (by simp [hk]),
          List.find?_cons_of_pos _ (by simp [hk])]
      · rw [List.find?_cons_of_neg _ (by simp [hk]),
          List.find?_cons_of_neg _ (by simp [hk])]
        exact ih

theorem mapGet_of_mem_nodup {α : Type} (m : List (String × α))
    (e : String × α) (hnd : (m.map Prod.fst).Nodup) (he : e ∈ m) :
    mapGet m e.1 = some e.2 := by
  induction m with
  | nil => cases he
  | cons a t ih =>
    rw [List.map_cons, List.nodup_cons] at hnd
    cases he with
    | head =>
      unfold mapGet
      rw [List.find?_cons_of_pos _ (by simp)]
      rfl
    | tail _ hmem =>
      have hne : a.1 ≠ e.1 := by
        intro heq
        exact hnd.1 (heq ▸ List.mem_map_of_mem Prod.fst hmem)
      unfold mapGet
      rw [List.find?_cons_of_neg _ (by simp [hne])]
      exact ih hnd.2 hmem

theorem mapDelete_length_of_mem_nodup {α : Type} (m : List (String × α))
    (k : String) (hnd : (m.map Prod.fst).Nodup) (hk : k ∈ m.map Prod.fst) :
    (mapDelete m k).length + 1 = m.length := by
  induction m with
  | nil => cases hk
  | cons a t ih =>
    rw [List.map_cons, List.nodup_cons] at hnd
    unfold mapDelete
    rcases List.mem_cons.mp hk with h1 | h1
    · rw [List.filter_cons_of_neg (by simp [h1])]
      have hfix : t.filter (fun e => !(e.1 == k)) = t := by
        apply List.filter_eq_self.mpr
        intro e hmem
        have hne : e.1 ≠ k := by
          intro heq
          exact hnd.1 (h1 ▸ heq ▸ List.mem_map_of_mem Prod.fst hmem)
        simp [hne]
      rw [hfix]
      simp
    · have hne : a.1 ≠ k := by
        intro heq
        exact hnd.1 (heq ▸ h1)
      rw [List.filter_cons_of_pos (by simp [hne])]
      have h2 := ih hnd.2 h1
      unfold mapDelete at h2
      simp only [List.length_cons]
      omega

/-- `const CACHE_TTL = 5 * 60 * 1000` (milliseconds). -/
def CACHE_TTL : Nat := 5 * 60 * 1000

/-- The two module-level maps (`queryCache`, `cacheTimestamps`).  Embedding
vectors (`number[]`) are modelled as `List Int`; their numeric content is
irrelevant to the cache behaviour. -/
structure CacheState where
  queryCache : List (String × List Int)
  cacheTimestamps : List (String × Nat)
deriving DecidableEq, Repr

/-- `getCachedEmbeddingSync` (stream-handler.ts 371–386): a hit requires the
entry to be present with a truthy timestamp (`0` is falsy in JS) inside the
TTL; otherwise a present-but-stale entry is deleted from both maps.
JS computes `Date.now() - timestamp` as a possibly negative number, which
is always `< CACHE_TTL`; truncated `Nat` subtraction yields `0 < CACHE_TTL`
in that case, the same branch. -/
def getCachedEmbeddingSync (st : CacheState) (query : String) (now : Nat) :
    Option (List Int) × CacheState :=
  match mapGet st.queryCache query, mapGet st.cacheTimestamps query with
  | some cached, some ts =>
    if ts ≠ 0 ∧ now - ts < CACHE_TTL then (some cached, st)
    else (none, ⟨mapDelete st.queryCache query, mapDelete st.cacheTimestamps query⟩)
  | some _, none =>
    (none, ⟨mapDelete st.queryCache query, mapDelete st.cacheTimestamps query⟩)
  | none, _ => (none, st)

/-- `Array.from(cacheTimestamps.entries()).sort(([,a],[,b]) => a - b)[0][0]`:
the key of the entry with the smallest timestamp (JS `sort` is stable and
iterates entries in insertion order; a stable structural sort models it). -/
def findOldestKey (tsm : List (String × Nat)) : String :=
  ((tsm.insertionSort (fun a b => a.2 ≤ b.2)).headD ("", 0)).1

/-- `setCachedEmbedding` (stream-handler.ts 388–399): insert/update both
maps, then if the cache grew beyond 100 entries evict the entry with the
oldest insertion timestamp. -/
def setCachedEmbedding (st : CacheState) (query : String)
    (embedding : List Int) (now : Nat) : CacheState :=
  let qc := mapSet st.queryCache query embedding
  let tsm := mapSet st.cacheTimestamps query now
  if qc.length > 100 then
    ⟨mapDelete qc (findOldestKey tsm), mapDelete tsm (findOldestKey tsm)⟩
  else ⟨qc, tsm⟩

/-- The async `getCachedEmbedding` (stream-handler.ts 358–369): consult the
sync cache; on a miss invoke the embed capability, store and return its
result.  The third component records whether `embed` was invoked. -/
def getCachedEmbedding (st : CacheState) (query : String) (now : Nat)
    (embed : String → List Int) : List Int × CacheState × Bool :=
  match getCachedEmbeddingSync st query now with
  | (some v, st') => (v, st', false)
  | (none, st') => (embed query, setCachedEmbedding st' query (embed query) now, true)

theorem findOldestKey_spec (tsm : List (String × Nat)) (q : String) (now : Nat)
    (hts : ∀ e ∈ tsm, e.2 < now) (hne : tsm ≠ []) :
    ∃ eo, eo ∈ tsm ∧ findOldestKey (tsm ++ [(q, now)]) = eo.1 ∧
      ∀ e ∈ tsm ++ [(q, now)], eo.2 ≤ e.2 := by
  haveI : IsTotal (String × Nat) (fun a b => a.2 ≤ b.2) :=
    ⟨fun a b => Nat.le_total a.2 b.2⟩
  haveI : IsTrans (String × Nat) (fun a b => a.2 ≤ b.2) :=
    ⟨fun _ _ _ hab hbc => Nat.le_trans hab hbc⟩
  have hperm := List.perm_insertionSort
    (fun a b : String × Nat => a.2 ≤ b.2) (tsm ++ [(q, now)])
  have hsorted := List.sorted_insertionSort
    (fun a b : String × Nat => a.2 ≤ b.2) (tsm ++ [(q, now)])
  have hne' : (tsm ++ [(q, now)]).insertionSort
      (fun a b : String × Nat => a.2 ≤ b.2) ≠ [] := by
    intro hnil
    have := hperm.length_eq
    rw [hnil] at this
    simp at this
  obtain ⟨h0, tl, heq⟩ := List.exists_cons_of_ne_nil hne'
  have hmin : ∀ e ∈ tsm ++ [(q, now)], h0.2 ≤ e.2 := by
    intro e hemem
    have hemem' : e ∈ h0 :: tl := heq ▸ (hperm.symm.subset hemem)
    rcases List.mem_cons.mp hemem' with h1 | h1
    · rw [h1]
    · rw [heq] at hsorted
      exact (List.pairwise_cons.mp hsorted).1 e h1
  have hh0mem : h0 ∈ tsm ++ [(q, now)] := hperm.subset (heq ▸ List.mem_cons_self h0 tl)
  have hh0tsm : h0 ∈ tsm := by
    rcases List.mem_append.mp hh0mem with h1 | h1
    · exact h1
    · exfalso
      obtain ⟨e0, he0⟩ := List.exists_mem_of_ne_nil tsm hne
      have h2 := hmin e0 (List.mem_append_left _ he0)
      have h3 := hts e0 he0
      have h4 : h0 = (q, now) := by simpa using h1
      rw [h4] at h2
      simp at h2
      omega
  refine ⟨h0, hh0tsm, ?_, hmin⟩
  unfold findOldestKey
  rw [heq]
  rfl

/-- Well-formedness of the running cache at time `now`: both maps carry the
same, duplicate-free key set, at most 100 entries are cached, and every
recorded timestamp is in the past. -/
def CacheWF (st : CacheState) (now : Nat) : Prop :=
  (st.queryCache.map Prod.fst).Nodup ∧
  st.queryCache.map Prod.fst = st.cacheTimestamps.map Prod.fst ∧
  st.queryCache.length ≤ 100 ∧
  ∀ e ∈ st.cacheTimestamps, e.2 < now

theorem setCached_get_self (st : CacheState) (q : String) (v : List Int)
    (now : Nat) (hwf : CacheWF st now) :
    mapGet (setCachedEmbedding st q v now).queryCache q = some v ∧
    mapGet (setCachedEmbedding st q v now).cacheTimestamps q = some now := by
  obtain ⟨hnd, hkeys, hlen, hts⟩ := hwf
  unfold setCachedEmbedding
  by_cases hevict : (mapSet st.queryCache q v).length > 100
  · have habs : q ∉ st.queryCache.map Prod.fst := by
      intro hmem
      have hany : st.queryCache.any (fun e => e.1 == q) = true := by
        obtain ⟨e, hemem, heq⟩ := List.mem_map.mp hmem
        exact List.any_eq_true.mpr ⟨e, hemem, by simp [heq]⟩
      have : (mapSet st.queryCache q v).length = st.queryCache.length := by
        unfold mapSet
        rw [if_pos hany]
        exact List.length_map _ _
      omega
    have habs' : q ∉ st.cacheTimestamps.map Prod.fst := hkeys ▸ habs
    have hanyts : st.cacheTimestamps.any (fun e => e.1 == q) = false := by
      rw [List.any_eq_false]
      intro e hemem
      simp only [beq_iff_eq]
      intro heq
      exact habs' (heq ▸ List.mem_map_of_mem Prod.fst hemem)
    have htsm : mapSet st.cacheTimestamps q now = st.cacheTimestamps ++ [(q, now)] := by
      unfold mapSet
      rw [if_neg (by simp [hanyts])]
    have hlents : st.cacheTimestamps ≠ [] := by
      intro hnil
      have hanyqc : st.queryCache.any (fun e => e.1 == q) = false := by
        rw [List.any_eq_false]
        intro e hemem
        simp only [beq_iff_eq]
        intro heq
        exact habs (heq ▸ List.mem_map_of_mem Prod.fst hemem)
      have : (mapSet st.queryCache q v).length = st.queryCache.length + 1 := by
        unfold mapSet
        rw [if_neg (by simp [hanyqc])]
        simp
      have hkeylen : st.queryCache.length = st.cacheTimestamps.length := by
        have := congrArg List.length hkeys
        simpa using this
      rw [hnil] at hkeylen
      simp only [List.length_nil] at hkeylen
      omega
    obtain ⟨eo, heo_mem, heo_key, _⟩ :=
      findOldestKey_spec st.cacheTimestamps q now hts hlents
    have heo_ne : eo.1 ≠ q := by
      intro heq
      exact habs' (heq ▸ List.mem_map_of_mem Prod.fst heo_mem)
    rw [if_pos hevict]
    dsimp only
    rw [htsm, heo_key]
    constructor
    · rw [mapGet_mapDelete_ne _ _ _ heo_ne]
      exact mapGet_mapSet_self _ _ _
    · rw [mapGet_mapDelete_ne _ _ _ heo_ne, ← htsm]
      exact mapGet_mapSet_self _ _ _
  · rw [if_neg hevict]
    exact ⟨mapGet_mapSet_self _ _ _, mapGet_mapSet_self _ _ _⟩

/-! ### C7: cache hit inside TTL, expiry, and oldest-entry eviction -/

/-- **C7.** The embedding cache satisfies: (1) after
`setCachedEmbedding q v`, a `getCachedEmbedding q` within the 5-minute TTL
returns `v` without invoking the embed capability (and leaves the state
unchanged); (2) a get after the TTL has elapsed misses, removes the stale
entry, and invokes `embed` again; (3) inserting a 101st distinct query
while 100 entries are cached evicts exactly one entry — the one with the
oldest insertion timestamp (the new state is precisely both maps with the
new entry appended and the oldest-timestamp key deleted, and the cache is
back at 100 entries with the new entry present). -/
theorem embeddingCache_ttl_and_eviction :
    (∀ (st : CacheState) (q : String) (v : List Int) (now now' : Nat)
       (embed : String → List Int), CacheWF st now → now ≠ 0 →
       now' - now < CACHE_TTL →
       getCachedEmbedding (setCachedEmbedding st q v now) q now' embed =
         (v, setCachedEmbedding st q v now, false)) ∧
    (∀ (st : CacheState) (q : String) (v : List Int) (ts now : Nat)
       (embed : String → List Int),
       mapGet st.queryCache q = some v →
       mapGet st.cacheTimestamps q = some ts →
       CACHE_TTL ≤ now - ts →
       (getCachedEmbeddingSync st q now).1 = none ∧
       mapGet (getCachedEmbeddingSync st q now).2.queryCache q = none ∧
       getCachedEmbedding st q now embed =
         (embed q,
          setCachedEmbedding (getCachedEmbeddingSync st q now).2 q (embed q) now,
          true)) ∧
    (∀ (st : CacheState) (q : String) (v : List Int) (now : Nat),
       (st.queryCache.map Prod.fst).Nodup →
       st.queryCache.map Prod.fst = st.cacheTimestamps.map Prod.fst →
       st.queryCache.length = 100 →
       q ∉ st.queryCache.map Prod.fst →
       (∀ e ∈ st.cacheTimestamps, e.2 < now) →
       ∃ eo, eo ∈ st.cacheTimestamps ∧ eo.1 ≠ q ∧
         (∀ e ∈ st.cacheTimestamps, eo.2 ≤ e.2) ∧
         setCachedEmbedding st q v now =
           ⟨mapDelete (st.queryCache ++ [(q, v)]) eo.1,
            mapDelete (st.cacheTimestamps ++ [(q, now)]) eo.1⟩ ∧
         (setCachedEmbedding st q v now).queryCache.length = 100 ∧
         mapGet (setCachedEmbedding st q v now).queryCache q = some v) := by
  refine ⟨?_, ?_, ?_⟩
  · intro st q v now now' embed hwf hnow httl
    obtain ⟨hv, ht⟩ := setCached_get_self st q v now hwf
    have hsync : getCachedEmbeddingSync (setCachedEmbedding st q v now) q now' =
        (some v, setCachedEmbedding st q v now) := by
      simp only [getCachedEmbeddingSync, hv, ht]
      rw [if_pos ⟨hnow, httl⟩]
    unfold getCachedEmbedding
    rw [hsync]
  · intro st q v ts now embed hv ht httl
    have hcond : ¬(ts ≠ 0 ∧ now - ts < CACHE_TTL) := by
      rintro ⟨_, h2⟩
      omega
    have hsync : getCachedEmbeddingSync st q now =
        (none, ⟨mapDelete st.queryCache q, mapDelete st.cacheTimestamps q⟩) := by
      simp only [getCachedEmbeddingSync, hv, ht]
      rw [if_neg hcond]
    refine ⟨by rw [hsync], ?_, ?_⟩
    · rw [hsync]
      exact mapGet_mapDelete_self _ _
    · unfold getCachedEmbedding
      rw [hsync]
  · intro st q v now hnd hkeys hlen habs hts
    have hanyqc : st.queryCache.any (fun e => e.1 == q) = false := by
      rw [List.any_eq_false]
      intro e hemem
      simp only [beq_iff_eq]
      intro heq
      exact habs (heq ▸ List.mem_map_of_mem Prod.fst hemem)
    have hqc : mapSet st.queryCache q v = st.queryCache ++ [(q, v)] := by
      unfold mapSet
      rw [if_neg (by simp [hanyqc])]
    have habs' : q ∉ st.cacheTimestamps.map Prod.fst := hkeys ▸ habs
    have hanyts : st.cacheTimestamps.any (fun e => e.1 == q) = false := by
      rw [List.any_eq_false]
      intro e hemem
      simp only [beq_iff_eq]
      intro heq
      exact habs' (heq ▸ List.mem_map_of_mem Prod.fst hemem)
    have htsm : mapSet st.cacheTimestamps q now = st.cacheTimestamps ++ [(q, now)] := by
      unfold mapSet
      rw [if_neg (by simp [hanyts])]
    have hlents : st.cacheTimestamps ≠ [] := by
      intro hnil
      have hkeylen : st.queryCache.length = st.cacheTimestamps.length := by
        have := congrArg List.length hkeys
        simpa using this
      rw [hnil] at hkeylen
      simp only [List.length_nil] at hkeylen
      omega
    obtain ⟨eo, heo_mem, heo_key, heo_min⟩ :=
      findOldestKey_spec st.cacheTimestamps q now hts hlents
    have heo_ne : eo.1 ≠ q := by
      intro heq
      exact habs' (heq ▸ List.mem_map_of_mem Prod.fst heo_mem)
    have hevict : (mapSet st.queryCache q v).length > 100 := by
      rw [hqc]
      simp only [List.length_append, List.length_cons, List.length_nil, hlen]
      omega
    have hstEq : setCachedEmbedding st q v now =
        ⟨mapDelete (st.queryCache ++ [(q, v)]) eo.1,
         mapDelete (st.cacheTimestamps ++ [(q, now)]) eo.1⟩ := by
      unfold setCachedEmbedding
      rw [if_pos hevict]
      rw [htsm, heo_key, hqc]
    refine ⟨eo, heo_mem, heo_ne,
      (fun e he => heo_min e (List.mem_append_left _ he)), hstEq, ?_, ?_⟩
    · rw [hstEq]
      dsimp only
      have hnd' : ((st.queryCache ++ [(q, v)]).map Prod.fst).Nodup := by
        rw [List.map_append, List.nodup_append]
        refine ⟨hnd, by simp, ?_⟩
        intro a ha hb
        simp only [List.map_cons, List.map_nil, List.mem_singleton] at hb
        exact habs (hb ▸ ha)
      have hmem' : eo.1 ∈ (st.queryCache ++ [(q, v)]).map Prod.fst := by
        rw [List.map_append]
        apply List.mem_append_left
        rw [hkeys]
        exact List.mem_map_of_mem Prod.fst heo_mem
      have hlen2 := mapDelete_length_of_mem_nodup _ eo.1 hnd' hmem'
      simp only [List.length_append, List.length_cons, List.length_nil, hlen] at hlen2
      omega
    · rw [hstEq]
      dsimp only
      rw [mapGet_mapDelete_ne _ _ _ heo_ne, ← hqc]
      exact mapGet_mapSet_self _ _ _

/-- A full cache of 100 distinct entries whose timestamps are all in the
past at time 1000. -/
def bigCache : CacheState :=
  ⟨(List.range 100).map (fun i => (toString i, [(i : Int)])),
   (List.range 100).map (fun i => (toString i, i + 1))⟩

/-- Witness for C7: a concrete hit inside the TTL, a concrete expiry, and
eviction on a concrete full 100-entry cache. -/
theorem embeddingCache_ttl_and_eviction_witness :
    (getCachedEmbedding
        (setCachedEmbedding ⟨[("a", [1])], [("a", 5)]⟩ "b" [2] 10) "b" 11
        (fun _ => [9]) =
      ([2], setCachedEmbedding ⟨[("a", [1])], [("a", 5)]⟩ "b" [2] 10, false)) ∧
    ((getCachedEmbeddingSync ⟨[("a", [1])], [("a", 5)]⟩ "a" (5 + CACHE_TTL)).1 = none ∧
     mapGet (getCachedEmbeddingSync ⟨[("a", [1])], [("a", 5)]⟩ "a" (5 + CACHE_TTL)).2.queryCache "a" = none ∧
     getCachedEmbedding ⟨[("a", [1])], [("a", 5)]⟩ "a" (5 + CACHE_TTL) (fun _ => [9]) =
       ([9],
        setCachedEmbedding
          (getCachedEmbeddingSync ⟨[("a", [1])], [("a", 5)]⟩ "a" (5 + CACHE_TTL)).2
          "a" [9] (5 + CACHE_TTL),
        true)) ∧
    (∃ eo, eo ∈ bigCache.cacheTimestamps ∧ eo.1 ≠ "q" ∧
       (∀ e ∈ bigCache.cacheTimestamps, eo.2 ≤ e.2) ∧
       setCachedEmbedding bigCache "q" [7] 1000 =
         ⟨mapDelete (bigCache.queryCache ++ [("q", [7])]) eo.1,
          mapDelete (bigCache.cacheTimestamps ++ [("q", 1000)]) eo.1⟩ ∧
       (setCachedEmbedding bigCache "q" [7] 1000).queryCache.length = 100 ∧
       mapGet (setCachedEmbedding bigCache "q" [7] 1000).queryCache "q" = some [7]) :=
  ⟨embeddingCache_ttl_and_eviction.1 ⟨[("a", [1])], [("a", 5)]⟩ "b" [2] 10 11
      (fun _ => [9]) (by unfold CacheWF; decide) (by decide) (by decide),
   embeddingCache_ttl_and_eviction.2.1 ⟨[("a", [1])], [("a", 5)]⟩ "a" [1] 5
      (5 + CACHE_TTL) (fun _ => [9]) (by decide) (by decide) (by decide),
   embeddingCache_ttl_and_eviction.2.2 bigCache "q" [7] 1000
      (by decide) (by decide) (by decide) (by decide) (by decide)⟩

/-! ## Citation Service: text structure classification
(`stream-handler.ts`, `CitationService.analyzeTextStructure`) -/

/-- The result record `{ type, reason }` of `analyzeTextStructure`.
`type` is one of `"FULL_HIGHLIGHT"`/`"PHRASE_HIGHLIGHT"`. -/
structure AnalysisResult where
  type : String
  reason : String
deriving DecidableEq, Repr

/-- JS `text.split('\n')`. -/
def splitNl : List Char → List (List Char)
  | [] => [[]]
  | c :: rest =>
    if c = '\n' then [] :: splitNl rest
    else
      match splitNl rest with
      | t :: ts => (c :: t) :: ts
      | [] => [[c]]

/-- The nonblank lines of the text:
`text.split('\n').filter(line => line.trim().length > 0)`. -/
def analyzedLines (cs : List Char) : List (List Char) :=
  (splitNl cs).filter (fun l => (jsTrim l).length > 0)

/-- The character class `["']`. -/
def isQuoteChar (c : Char) : Bool := c = '"' || c = '\''

/-- JS `\w` (ASCII): letters, digits, underscore. -/
def isWordChar (c : Char) : Bool := c.isAlphanum || c = '_'

/-- Case-insensitive prefix test. -/
def ciIsPrefixOf (w cs : List Char) : Bool :=
  decide (w.length ≤ cs.length) &&
    ((cs.take w.length).map Char.toLower == w.map Char.toLower)

/-- `/\b w \b/i.test(text)` for a pattern `w` that starts and ends with word
characters (as all the speech verbs do): an occurrence of `w`
(case-insensitively) whose neighbours are absent or non-word characters.
`prev` is the character just before the current scan position. -/
def findWordCI (w : List Char) (prev : Option Char) : List Char → Bool
  | [] => false
  | c :: rest =>
    (ciIsPrefixOf w (c :: rest) &&
      (match prev with
       | none => true
       | some p => !(isWordChar p)) &&
      (match (c :: rest).drop w.length with
       | [] => true
       | d :: _ => !(isWordChar d))) ||
    findWordCI w (some c) rest

/-- The speech-verb alternation of the dialogue rule. -/
def speechVerbs : List String :=
  ["said", "asked", "yelled", "whispered", "declared", "announced",
   "shouted", "replied", "responded"]

/-- `/^\s*[\*\-\d+\.]\s/.test(line) || /^\s{4,}/.test(line)`: a list-item
lead-in (optional whitespace, one of `* - digit + .`, then whitespace) or
an indentation of at least four whitespace characters. -/
def isStructuredLine (line : List Char) : Bool :=
  (match line.dropWhile isWsJS with
   | c1 :: c2 :: _ =>
     (c1 = '*' || c1 = '-' || c1.isDigit || c1 = '+' || c1 = '.') && isWsJS c2
   | _ => false) ||
  decide ((line.takeWhile isWsJS).length ≥ 4)

/-- `/\n\s*\n/.test(text)`: a newline whose following whitespace run
contains another newline. -/
def hasStanzaBreak : List Char → Bool
  | [] => false
  | c :: rest =>
    (c = '\n' && (rest.takeWhile isWsJS).any (fun d => d = '\n')) ||
    hasStanzaBreak rest

/-- `text.match(/["']([^"']{100,})["']/g) !== null`: two quote characters
with at least 100 non-quote characters between them. -/
def hasLongQuote : List Char → Bool
  | [] => false
  | c :: rest =>
    (isQuoteChar c &&
      decide ((rest.takeWhile (fun d => !(isQuoteChar d))).length ≥ 100) &&
      !((rest.drop ((rest.takeWhile (fun d => !(isQuoteChar d))).length)).isEmpty)) ||
    hasLongQuote rest

/-- Fuel-indexed worker for `removeQuotedSpans`; every recursive call is on
a strict suffix, so `fuel = cs.length` never runs out. -/
def removeQuotedSpansFuel : Nat → List Char → List Char
  | 0, cs => cs
  | _ + 1, [] => []
  | fuel + 1, c :: rest =>
    if isQuoteChar c then
      match rest.drop ((rest.takeWhile (fun d => !(isQuoteChar d) && d ≠ '\n')).length) with
      | [] => c :: rest
      | d :: rest' =>
        if isQuoteChar d then removeQuotedSpansFuel fuel rest'
        else (c :: (rest.takeWhile (fun d => !(isQuoteChar d) && d ≠ '\n')) ++ [d]) ++
          removeQuotedSpansFuel fuel rest'
    else c :: removeQuotedSpansFuel fuel rest

/-- JS `text.replace(/["'].*?["']/g, '')`: delete every lazily-matched
quoted span (the dot does not match a newline, so a span never crosses a
line break; an unmatched opening quote is kept). -/
def removeQuotedSpans (cs : List Char) : List Char :=
  removeQuotedSpansFuel cs.length cs

/-- JS `line.endsWith('.')`. -/
def endsWithPeriod (l : List Char) : Bool :=
  match l.getLast? with
  | some c => c = '.'
  | none => false

/-- Rule 1, structured text: more than 30% of the nonblank lines look like
list items or are deeply indented.  (`lines.length * 0.3` is exact here:
an integer times the double nearest to 0.3 rounds to `3·n/10`, so the
comparison agrees with the rational one.) -/
def structuredTextCond (text : String) : Bool :=
  let lines := analyzedLines text.toList
  decide (10 * (lines.filter isStructuredLine).length > 3 * lines.length)

/-- Rule 2, dialogue: a quote character together with a speech verb. -/
def dialogueCond (text : String) : Bool :=
  text.toList.any isQuoteChar &&
    speechVerbs.any (fun v => findWordCI v.toList none text.toList)

/-- Rule 3, poetry: more than 2 lines and (most lines short, or a stanza
break, or a short title line not ending in a period). -/
def poetryCond (text : String) : Bool :=
  let lines := analyzedLines text.toList
  decide (lines.length > 2) &&
    (decide (2 * (lines.filter
        (fun l => (jsSplitWs (jsTrim l)).length ≤ 12)).length > lines.length) ||
     hasStanzaBreak text.toList ||
     (match lines with
      | l0 :: _ => decide ((jsSplitWs l0).length ≤ 4) && !(endsWithPeriod l0)
      | [] => false))

/-- Rule 4, long quotation. -/
def longQuoteCond (text : String) : Bool :=
  hasLongQuote text.toList

/-- Rule 5, verse structure: average words per line < 8 with > 2 lines
(`totalWords / lines < 8` over the rationals, denominator nonzero because
of the second conjunct). -/
def verseCond (text : String) : Bool :=
  let lines := analyzedLines text.toList
  decide ((jsSplitWs text.toList).length < 8 * lines.length) &&
    decide (lines.length > 2)

/-- Rule 6, prose dominance: the words outside quoted spans are at least
80% of all words (`p / t >= 0.80` over the rationals; exact for all
realistically-sized texts — see the note on rule 1). -/
def proseDominantCond (text : String) : Bool :=
  decide (5 * (jsSplitWs (removeQuotedSpans text.toList)).length ≥
    4 * (jsSplitWs text.toList).length)

/-- `CitationService.analyzeTextStructure`: the ordered decision sequence,
first match wins. -/
def analyzeTextStructure (text : String) : AnalysisResult :=
  if structuredTextCond text then ⟨"FULL_HIGHLIGHT", "structured_text"⟩
  else if dialogueCond text then ⟨"FULL_HIGHLIGHT", "dialogue"⟩
  else if poetryCond text then ⟨"FULL_HIGHLIGHT", "poetry"⟩
  else if longQuoteCond text then ⟨"FULL_HIGHLIGHT", "long_quote"⟩
  else if verseCond text then ⟨"FULL_HIGHLIGHT", "verse_structure"⟩
  else if proseDominantCond text then ⟨"PHRASE_HIGHLIGHT", "prose_dominant"⟩
  else ⟨"PHRASE_HIGHLIGHT", "regular_prose"⟩

/-! ### C4: totality, the seven classifications, and rule priority -/

/-- A single structured-looking line that contains both a quoted dialogue
(`said "hi"`) and ≥80% prose words. -/
def textC4 : String :=
  "- alpha beta gamma delta epsilon zeta eta theta said \"hi\""

/-- **C4 counterexample.** An input satisfying both the dialogue condition
(quotation mark plus a speech verb) and the prose-dominance condition is
*not* classified dialogue when the earlier structured-text rule also
matches: this input is classified `structured_text`. -/
theorem analyzeTextStructure_dialogue_preempted :
    dialogueCond textC4 = true ∧ proseDominantCond textC4 = true ∧
    structuredTextCond textC4 = true ∧
    analyzeTextStructure textC4 = ⟨"FULL_HIGHLIGHT", "structured_text"⟩ := by
  decide

/-- **C4 (amended).** `analyzeTextStructure` is a total, deterministic
function: every input yields exactly one of the seven classifications
(`structured_text`, `dialogue`, `poetry`, `long_quote`, `verse_structure`
as FULL_HIGHLIGHT; `prose_dominant`, `regular_prose` as PHRASE_HIGHLIGHT),
the rules are evaluated in that fixed priority order with the first match
winning, and an input satisfying both the dialogue and the prose-dominance
conditions is classified dialogue *provided* the earlier structured-text
rule does not match. -/
theorem analyzeTextStructure_total_and_ordered :
    (∀ text, analyzeTextStructure text ∈
       ([⟨"FULL_HIGHLIGHT", "structured_text"⟩, ⟨"FULL_HIGHLIGHT", "dialogue"⟩,
         ⟨"FULL_HIGHLIGHT", "poetry"⟩, ⟨"FULL_HIGHLIGHT", "long_quote"⟩,
         ⟨"FULL_HIGHLIGHT", "verse_structure"⟩,
         ⟨"PHRASE_HIGHLIGHT", "prose_dominant"⟩,
         ⟨"PHRASE_HIGHLIGHT", "regular_prose"⟩] : List AnalysisResult)) ∧
    (∀ text, structuredTextCond text = false → dialogueCond text = true →
       analyzeTextStructure text = ⟨"FULL_HIGHLIGHT", "dialogue"⟩) := by
  constructor
  · intro text
    unfold analyzeTextStructure
    split_ifs <;> decide
  · intro text h1 h2
    unfold analyzeTextStructure
    rw [if_neg (by simp [h1]), if_pos h2]

/-- Witness for C4 (amended): a prose sentence with quoted dialogue — not
structured-looking, dialogue and prose-dominance both hold — is classified
dialogue. -/
theorem analyzeTextStructure_total_and_ordered_witness :
    proseDominantCond "The cat said \"hi\" to the dog." = true ∧
    analyzeTextStructure "The cat said \"hi\" to the dog." =
      ⟨"FULL_HIGHLIGHT", "dialogue"⟩ :=
  ⟨by decide,
   analyzeTextStructure_total_and_ordered.2 "The cat said \"hi\" to the dog."
     (by decide) (by decide)⟩

/-! ## Citation Service: highlighting
(`stream-handler.ts`, `CitationService.applyHighlighting`)

The replacement scanners below are written with an explicit fuel argument
(`fuel = length of the scanned list` always suffices since every step
consumes at least one character); this keeps them kernel-computable. -/

/-- `<strong class="font-semibold text-foreground">`. -/
def strongOpen : List Char := "<strong class=\"font-semibold text-foreground\">".toList

/-- `</strong>`. -/
def strongClose : List Char := "</strong>".toList

/-- `<span class="font-medium">`. -/
def spanOpen : List Char := "<span class=\"font-medium\">".toList

/-- `</span>`. -/
def spanClose : List Char := "</span>".toList

/-- `<mark class="bg-muted text-foreground font-semibold rounded px-1 py-0.5">`. -/
def markOpen : List Char :=
  "<mark class=\"bg-muted text-foreground font-semibold rounded px-1 py-0.5\">".toList

/-- `</mark>`. -/
def markClose : List Char := "</mark>".toList

/-- The lazy search for the closing `**` of a bold span: the first `**`
occurrence, failing on a newline (the dot of `.*?` does not match `\n`).
Returns the span contents and the remainder after the closing `**`. -/
def findBoldClose : List Char → Option (List Char × List Char)
  | [] => none
  | c :: rest =>
    if c = '*' then
      match rest with
      | '*' :: rest2 => some ([], rest2)
      | _ =>
        match findBoldClose rest with
        | some (inner, after) => some (c :: inner, after)
        | none => none
    else if c = '\n' then none
    else
      match findBoldClose rest with
      | some (inner, after) => some (c :: inner, after)
      | none => none

/-- `html.replace(/\*\*(.*?)\*\*/g, '<strong …>$1</strong>')`. -/
def replaceBoldFuel : Nat → List Char → List Char
  | 0, cs => cs
  | _ + 1, [] => []
  | fuel + 1, c :: rest =>
    if c = '*' then
      match rest with
      | '*' :: rest2 =>
        match findBoldClose rest2 with
        | some (inner, after) =>
          strongOpen ++ inner ++ strongClose ++ replaceBoldFuel fuel after
        | none => c :: replaceBoldFuel fuel rest
      | _ => c :: replaceBoldFuel fuel rest
    else c :: replaceBoldFuel fuel rest

/-- `html.replace(/^(\d+\.)\s/gm, '<span class="font-medium">$1</span> ')`.
The boolean tracks whether the scanner sits at a line start (string start
or just after `\n`). -/
def replaceNumListFuel : Nat → Bool → List Char → List Char
  | 0, _, cs => cs
  | _ + 1, _, [] => []
  | fuel + 1, atStart, c :: rest =>
    if atStart ∧ ((c :: rest).takeWhile Char.isDigit).length > 0 then
      match h : (c :: rest).drop ((c :: rest).takeWhile Char.isDigit).length with
      | '.' :: s :: rest2 =>
        if isWsJS s then
          spanOpen ++ ((c :: rest).takeWhile Char.isDigit) ++ ['.'] ++ spanClose ++
            [' '] ++ replaceNumListFuel fuel (s = '\n') rest2
        else c :: replaceNumListFuel fuel (c = '\n') rest
      | _ => c :: replaceNumListFuel fuel (c = '\n') rest
    else c :: replaceNumListFuel fuel (c = '\n') rest

/-- `html.replace(/^\s*-\s/gm, '• ')`.  At a line start the greedy `\s*`
takes the full whitespace run; the next character must be `-` followed by
one whitespace character. -/
def replaceDashFuel : Nat → Bool → List Char → List Char
  | 0, _, cs => cs
  | _ + 1, _, [] => []
  | fuel + 1, atStart, c :: rest =>
    if atStart then
      match h : (c :: rest).drop ((c :: rest).takeWhile isWsJS).length with
      | '-' :: s :: rest2 =>
        if isWsJS s then
          '•' :: ' ' :: replaceDashFuel fuel (s = '\n') rest2
        else c :: replaceDashFuel fuel (c = '\n') rest
      | _ => c :: replaceDashFuel fuel (c = '\n') rest
    else c :: replaceDashFuel fuel (c = '\n') rest

/-- `html.replace(/\n/g, '<br/>')`. -/
def replaceNewlines (cs : List Char) : List Char :=
  cs.flatMap (fun c => if c = '\n' then "<br/>".toList else [c])

/-- The light markdown rendering chain at the top of `applyHighlighting`
(bold, numbered list lead-ins, dash bullets, newlines). -/
def mdLite (content : List Char) : List Char :=
  replaceNewlines
    (replaceDashFuel content.length true
      (replaceNumListFuel content.length true
        (replaceBoldFuel content.length content)))

/-- Word-ness of the character before the scan position (string edge counts
as non-word). -/
def optIsWord (o : Option Char) : Bool :=
  match o with
  | some p => isWordChar p
  | none => false

/-- The two `\b` assertions of `\b(phrase)\b` at the current position of
`cs` (a boundary holds iff exactly one side is a word character; for the
empty phrase both assertions collapse into one). -/
def boundaryOk (w : List Char) (prev : Option Char) (cs : List Char) : Bool :=
  match w with
  | [] => optIsWord prev != optIsWord cs.head?
  | w0 :: wrest =>
    (optIsWord prev != isWordChar w0) &&
    (isWordChar ((w0 :: wrest).getLast (by simp)) !=
      optIsWord ((cs.drop (w0 :: wrest).length).head?))

/-- `html.replace(new RegExp(pattern, 'gi'), '<mark …>$1</mark>')` where
`pattern` is the regex-escaped phrase, optionally wrapped in `\b…\b`.
The scanner walks the *original* string (as JS `replace` does), wraps each
match — `$1` keeps the original casing — and continues after it; a
zero-length match (empty phrase) inserts the wrapper and advances one
character, as JS does. -/
def jsReplacePhraseFuel : Nat → Bool → List Char → Option Char → List Char → List Char
  | 0, _, _, _, cs => cs
  | _ + 1, _, _, _, [] => []
  | fuel + 1, useWB, w, prev, c :: rest =>
    if ciIsPrefixOf w (c :: rest) && (!useWB || boundaryOk w prev (c :: rest)) then
      if w.isEmpty then
        markOpen ++ markClose ++ c :: jsReplacePhraseFuel fuel useWB w (some c) rest
      else
        markOpen ++ ((c :: rest).take w.length) ++ markClose ++
          jsReplacePhraseFuel fuel useWB w
            (some (((c :: rest).take w.length).getLast?.getD c))
            ((c :: rest).drop w.length)
    else c :: jsReplacePhraseFuel fuel useWB w (some c) rest

/-- One phrase-wrapping pass of `applyHighlighting`/`processResponse`. -/
def jsReplacePhrase (useWB : Bool) (w : List Char) (cs : List Char) : List Char :=
  jsReplacePhraseFuel cs.length useWB w none cs

/-- `CitationService.applyHighlighting`: full-block wrap when the analysis
says FULL_HIGHLIGHT (or a single phrase covers >80% of the content),
otherwise wrap each phrase occurrence, longest phrases first (stable
descending length sort, as JS `sort((a,b) => b.length - a.length)`);
phrases of ≤3 words use word boundaries. -/
def applyHighlighting (content : String) (phrases : List String)
    (analysisResult : AnalysisResult) : String :=
  let isFullHighlight := analysisResult.type == "FULL_HIGHLIGHT" ||
    (phrases.length == 1 &&
      decide (5 * (jsTrim (phrases.headD "").toList).length >
        4 * (jsTrim content.toList).length))
  let html := mdLite content.toList
  if isFullHighlight then
    String.mk (markOpen ++ html ++ markClose)
  else
    let sorted := phrases.insertionSort (fun a b => b.length ≤ a.length)
    String.mk (sorted.foldl
      (fun acc phrase =>
        jsReplacePhrase (decide ((jsSplitWs phrase.toList).length ≤ 3))
          phrase.toList acc)
      html)

/-! ### C9: highlight wrapping is not idempotent -/

/-- Plain prose content for the C9 analysis. -/
def contentC9 : String := "the alpha beta gamma sits here"

/-- A single three-word phrase (matched with word boundaries). -/
def phraseC9 : String := "alpha beta gamma"

/-- A PHRASE_HIGHLIGHT analysis result. -/
def resultC9 : AnalysisResult := ⟨"PHRASE_HIGHLIGHT", "prose_dominant"⟩

/-- `applyHighlighting` applied once to `contentC9`. -/
def onceHighlighted : String :=
  "the <mark class=\"bg-muted text-foreground font-semibold rounded px-1 py-0.5\">alpha beta gamma</mark> sits here"

/-- The same HTML after a second application: the phrase occurrence is
wrapped again, nesting two identical mark wrappers. -/
def twiceHighlighted : String :=
  "the <mark class=\"bg-muted text-foreground font-semibold rounded px-1 py-0.5\"><mark class=\"bg-muted text-foreground font-semibold rounded px-1 py-0.5\">alpha beta gamma</mark></mark> sits here"

set_option maxRecDepth 40000 in
/-- **C9 counterexample.** `applyHighlighting` is not idempotent on its own
output: re-applying it to HTML that already contains the highlight wrapper
for the (single, hence non-overlapping) phrase produces a nested duplicate
mark wrapper around the same occurrence — the `\b(phrase)\b` scan matches
again between `>` and `<`. -/
theorem applyHighlighting_not_idempotent :
    applyHighlighting contentC9 [phraseC9] resultC9 = onceHighlighted ∧
    applyHighlighting onceHighlighted [phraseC9] resultC9 ≠ onceHighlighted := by
  constructor
  · decide
  · decide

set_option maxRecDepth 40000 in
/-- **C9 (amended).** Applying the highlight-wrapping function to HTML that
already contains the highlight wrappers for the same phrase set wraps each
phrase occurrence again: the second application yields nested duplicate
mark wrappers around the same occurrence (shown here exactly). -/
theorem applyHighlighting_rewraps_nested :
    applyHighlighting onceHighlighted [phraseC9] resultC9 = twiceHighlighted := by
  decide

/-! ## Citation Service: marker extraction
(`stream-handler.ts`, `CitationService.extractCitations`) -/

/-- The literal lead-in of a citation marker, `"[SOURCE: "` (9 characters). -/
def markerLead : List Char := "[SOURCE: ".toList

/-- The scan of `/\[SOURCE: ([^\]]+)\]/g` via repeated `exec`: the list of
`(match index, captured inner text)` pairs, scanning left to right and
continuing after each match.  A lead-in with an empty capture or no closing
bracket does not match and the scan advances one character. -/
def markerScanFuel : Nat → Nat → List Char → List (Nat × List Char)
  | 0, _, _ => []
  | _ + 1, _, [] => []
  | fuel + 1, pos, c :: rest =>
    if markerLead.isPrefixOf (c :: rest) then
      let afterLead := (c :: rest).drop 9
      let inner := afterLead.takeWhile (fun d => d ≠ ']')
      if inner.length > 0 ∧ ¬(afterLead.drop inner.length).isEmpty then
        (pos, inner) ::
          markerScanFuel fuel (pos + 9 + inner.length + 1)
            ((c :: rest).drop (9 + inner.length + 1))
      else markerScanFuel fuel (pos + 1) rest
    else markerScanFuel fuel (pos + 1) rest

/-- All markers of an answer, in order of appearance. -/
def markerScan (cs : List Char) : List (Nat × List Char) :=
  markerScanFuel cs.length 0 cs

/-- `str.replace(/\[SOURCE: [^\]]+\]/g, '')`: delete every marker. -/
def stripMarkersFuel : Nat → List Char → List Char
  | 0, cs => cs
  | _ + 1, [] => []
  | fuel + 1, c :: rest =>
    if markerLead.isPrefixOf (c :: rest) then
      let afterLead := (c :: rest).drop 9
      let inner := afterLead.takeWhile (fun d => d ≠ ']')
      if inner.length > 0 ∧ ¬(afterLead.drop inner.length).isEmpty then
        stripMarkersFuel fuel ((c :: rest).drop (9 + inner.length + 1))
      else c :: stripMarkersFuel fuel rest
    else c :: stripMarkersFuel fuel rest

/-- See `stripMarkersFuel`. -/
def stripMarkers (cs : List Char) : List Char :=
  stripMarkersFuel cs.length cs

/-- JS `hay.lastIndexOf(pat)`, with a miss mapped to `0` instead of `-1`
(safe here: every use site takes a `max` with a non-negative term, so the
`-1` of a miss can never be the maximum). -/
def lastIndexOfSub (hay pat : List Char) : Nat :=
  ((List.range (hay.length + 1)).filter
    (fun i => pat.isPrefixOf (hay.drop i))).foldl max 0

/-- JS `hay.indexOf(pat) !== -1 ? some index : none`. -/
def indexOfSub (hay pat : List Char) : Option Nat :=
  (List.range (hay.length + 1)).find? (fun i => pat.isPrefixOf (hay.drop i))

/-- JS `str.split(sep)` for a non-empty literal separator. -/
def splitOnSepFuel : Nat → List Char → List Char → List (List Char)
  | 0, _, cs => [cs]
  | _ + 1, _, [] => [[]]
  | fuel + 1, sep, c :: rest =>
    if sep.isPrefixOf (c :: rest) then
      [] :: splitOnSepFuel fuel sep ((c :: rest).drop sep.length)
    else
      match splitOnSepFuel fuel sep rest with
      | t :: ts => (c :: t) :: ts
      | [] => [[c]]

/-- See `splitOnSepFuel`. -/
def splitOnSep (sep cs : List Char) : List (List Char) :=
  splitOnSepFuel cs.length sep cs

/-- JS `str.replace(pat, '')` with a *string* pattern: remove only the
first occurrence. -/
def removeFirstSubFuel : Nat → List Char → List Char → List Char
  | 0, _, cs => cs
  | _ + 1, _, [] => []
  | fuel + 1, pat, c :: rest =>
    if pat.isPrefixOf (c :: rest) then (c :: rest).drop pat.length
    else c :: removeFirstSubFuel fuel pat rest

/-- See `removeFirstSubFuel`. -/
def removeFirstSub (pat cs : List Char) : List Char :=
  removeFirstSubFuel cs.length pat cs

/-- JS `parseInt(str)` (base 10): skip leading whitespace, optional sign,
then decimal digits; `none` models `NaN`. -/
def parseIntJS (cs : List Char) : Option Int :=
  let parseDigits : List Char → Option Nat := fun ds =>
    let digits := ds.takeWhile Char.isDigit
    if digits.isEmpty then none
    else some (digits.foldl (fun acc c => 10 * acc + (c.toNat - 48)) 0)
  match cs.dropWhile isWsJS with
  | '-' :: ds => (parseDigits ds).map (fun n => -(n : Int))
  | '+' :: ds => (parseDigits ds).map (fun n => (n : Int))
  | ds => (parseDigits ds).map (fun n => (n : Int))

/-- The context snippet around a marker at index `idx` of length `len`
(extractCitations lines 194–218): the sentence/paragraph window, bounded to
~200 characters each side, with all markers stripped and trimmed; a window
shorter than 20 characters is replaced by a ±100-character raw window. -/
def contextSnippetFor (cs : List Char) (idx len : Nat) : List Char :=
  let beforeText := cs.take idx
  let afterText := cs.drop (idx + len)
  let sentenceStart :=
    max (max (lastIndexOfSub beforeText ". ".toList)
             (lastIndexOfSub beforeText "\n".toList))
        (max (lastIndexOfSub beforeText ": ".toList) (idx - 200))
  let e1 := match indexOfSub afterText ". ".toList with
    | some j => idx + len + j + 1
    | none => cs.length
  let e2 := match indexOfSub afterText "\n".toList with
    | some j => idx + len + j
    | none => cs.length
  let sentenceEnd := min (min e1 e2) (idx + len + 200)
  let snip := jsTrim (stripMarkers ((cs.take sentenceEnd).drop sentenceStart))
  if snip.length < 20 then
    jsTrim (stripMarkers ((cs.take (min cs.length (idx + len + 100))).drop (idx - 100)))
  else snip

/-- A produced citation.  `citation_id`
(`` `${id}-${Date.now()}-${Math.random()}` ``) is intentionally not
modelled: it is a nondeterministic opaque UI identifier derived from the
clock and the RNG, used by no logic in the engine. -/
structure Citation where
  source_file : String
  page_number : Option Int := none
  content_snippet : String
  blob_url : Option String := none
  chunk_id : Option String := none
  specific_content : Option String := none
  citation_index : Nat
  highlight_phrases : List String := []
  highlighted_html : String := ""
  page_blueprint : Option PageBlueprint := none
deriving DecidableEq, Repr

/-- `parts[0]` of `match[1].split(', ')`: the marker's source file name. -/
def sourceFileOf (inner : List Char) : String :=
  String.mk ((splitOnSep ", ".toList inner).headD [])

/-- `parts.find(p => p.startsWith('Page '))` parsed with `parseInt`
(`none` = no page part, or `NaN`; both are falsy downstream). -/
def pageNumberOf (inner : List Char) : Option Int :=
  match (splitOnSep ", ".toList inner).find?
      (fun p => "Page ".toList.isPrefixOf p) with
  | some p => parseIntJS (removeFirstSub "Page ".toList p)
  | none => none

/-- `!pageNumber || chunk.page_number === pageNumber` (JS truthiness: an
absent page, a `NaN` parse and page `0` all disable the filter). -/
def pageFilterOk (pageNum : Option Int) (chunk : Chunk) : Bool :=
  match pageNum with
  | none => true
  | some n => if n = 0 then true else chunk.page_number == n

/-- The candidate chunks of a marker: retrieved chunks whose parent
blueprint's file name matches the marker (and the page, when given). -/
def sourceChunksFor (retrievedChunks : List Chunk)
    (blueprints : List BlueprintDocument) (inner : List Char) : List Chunk :=
  retrievedChunks.filter (fun chunk =>
    (match blueprints.find? (fun bp => bp.id == chunk.document_id) with
     | some bp => bp.source_file == sourceFileOf inner
     | none => false) && pageFilterOk (pageNumberOf inner) chunk)

/-- The context words used for scoring: the lowercased snippet split on
whitespace, keeping words longer than 3 characters. -/
def contextWordsOf (snippet : List Char) : List (List Char) :=
  (jsSplitWs (snippet.map Char.toLower)).filter (fun w => w.length > 3)

/-- The overlap score of a candidate chunk (extractCitations lines
232–250): 15×n for every matching contiguous n-gram (n = 5, 4, 3) of the
context words found in the chunk, plus 2×length for every matching
individual word. -/
def scoreChunk (chunkContentLower : List Char) (ws : List (List Char)) : Nat :=
  (([5, 4, 3].flatMap (fun len =>
      (List.range (ws.length + 1 - len)).map
        (fun i => (len, List.intercalate [' '] ((ws.drop i).take len))))).foldl
    (fun acc p => if listInfix p.2 chunkContentLower then acc + p.1 * 15 else acc) 0) +
  (ws.foldl
    (fun acc w => if listInfix w chunkContentLower then acc + w.length * 2 else acc) 0)

/-- The `bestSourceDoc` selection loop: running best with initial score 0,
strict improvement only, skipping chunks with empty (falsy) content. -/
def bestSourceChunk (sourceChunks : List Chunk) (ws : List (List Char)) :
    Option Chunk :=
  (sourceChunks.foldl
    (fun (acc : Option Chunk × Nat) chunk =>
      if chunk.content.isEmpty then acc
      else
        let score := scoreChunk (chunk.content.toList.map Char.toLower) ws
        if score > acc.2 then (some chunk, score) else acc)
    (none, 0)).1

/-- JS `chunkPage || pageNumber` for the citation's `page_number` field
(`0` is falsy and falls through; an absent/`NaN` fallback stays absent). -/
def jsOrInt (a : Int) (b : Option Int) : Option Int :=
  if a ≠ 0 then some a else b

/-- `blueprint?.pdf_url || (non-array blueprint && blob_url) || 'placeholder'`
(JS `||`: `none` and the empty string are falsy). -/
def blobUrlOf (blueprint : Option BlueprintDocument) : String :=
  let o1 : Option String := blueprint.bind (fun bp => bp.pdf_url)
  let o2 : Option String := blueprint.bind (fun bp =>
    match bp.blueprint with
    | Sum.inr simple => some simple.blob_url
    | Sum.inl _ => none)
  match o1 with
  | some u =>
    if u.isEmpty then
      match o2 with
      | some u2 => if u2.isEmpty then "placeholder" else u2
      | none => "placeholder"
    else u
  | none =>
    match o2 with
    | some u2 => if u2.isEmpty then "placeholder" else u2
    | none => "placeholder"

/-- `bestSourceDoc || sourceChunks[0]`: the scored best candidate, falling
back to the first candidate when no candidate scored above 0. -/
def pickSourceChunk (sourceChunks : List Chunk) (ws : List (List Char)) :
    Option Chunk :=
  (bestSourceChunk sourceChunks ws).or sourceChunks.head?

/-- The citation built for one marker `(idx, inner)` (extractCitations
lines 188–307), or `none` when no retrieved chunk matches the marker's
file/page.  `phrasesOf content context` stands for the awaited
`extractContextualPhrases` generation-model call (§4.3), an external
capability. -/
def citationForMarker (cs : List Char) (retrievedChunks : List Chunk)
    (blueprints : List BlueprintDocument)
    (phrasesOf : String → String → List String)
    (idx : Nat) (inner : List Char) (citationIndex : Nat) : Option Citation :=
  match pickSourceChunk (sourceChunksFor retrievedChunks blueprints inner)
      (contextWordsOf (contextSnippetFor cs idx (9 + inner.length + 1))) with
  | none => none
  | some chunk =>
    let sourceFile := sourceFileOf inner
    let pageNumber := pageNumberOf inner
    let contextSnippet := contextSnippetFor cs idx (9 + inner.length + 1)
    let blueprint := blueprints.find? (fun bp => bp.id == chunk.document_id)
    let pageBlueprint : Option PageBlueprint := blueprint.bind (fun bp =>
      match bp.blueprint with
      | Sum.inl pages =>
        match jsOrInt chunk.page_number pageNumber with
        | some n => pages.find? (fun page => page.page_number == n)
        | none => none
      | Sum.inr _ => none)
    let analysisResult := analyzeTextStructure chunk.content
    let highlightPhrases :=
      if analysisResult.type == "FULL_HIGHLIGHT" then
        [String.mk (jsTrim chunk.content.toList)]
      else phrasesOf chunk.content (String.mk contextSnippet)
    some
      { source_file := sourceFile
        page_number := jsOrInt chunk.page_number pageNumber
        content_snippet := String.mk contextSnippet
        blob_url := some (blobUrlOf blueprint)
        chunk_id := some chunk.document_id
        specific_content := some chunk.content
        citation_index := citationIndex
        highlight_phrases := highlightPhrases
        highlighted_html :=
          applyHighlighting chunk.content highlightPhrases analysisResult
        page_blueprint := pageBlueprint }

/-- `CitationService.extractCitations`: one optional citation per marker,
in marker order; `citation_index` is the running count of citations
already pushed. -/
def extractCitations (finalAnswer : String) (retrievedChunks : List Chunk)
    (blueprints : List BlueprintDocument)
    (phrasesOf : String → String → List String) : List Citation :=
  (markerScan finalAnswer.toList).foldl
    (fun acc m =>
      match citationForMarker finalAnswer.toList retrievedChunks blueprints
          phrasesOf m.1 m.2 acc.length with
      | some c => acc ++ [c]
      | none => acc)
    []

/-! ### C1: citations come only from retrieved chunks -/

theorem bestSourceChunk_mem (l : List Chunk) (ws : List (List Char))
    (c : Chunk) (h : bestSourceChunk l ws = some c) : c ∈ l := by
  unfold bestSourceChunk at h
  suffices hgen : ∀ (l : List Chunk) (acc : Option Chunk × Nat),
      (l.foldl
        (fun (acc : Option Chunk × Nat) chunk =>
          if chunk.content.isEmpty then acc
          else
            let score := scoreChunk (chunk.content.toList.map Char.toLower) ws
            if score > acc.2 then (some chunk, score) else acc)
        acc).1 = acc.1 ∨
      ∃ x ∈ l, (l.foldl
        (fun (acc : Option Chunk × Nat) chunk =>
          if chunk.content.isEmpty then acc
          else
            let score := scoreChunk (chunk.content.toList.map Char.toLower) ws
            if score > acc.2 then (some chunk, score) else acc)
        acc).1 = some x by
    rcases hgen l (none, 0) with h1 | ⟨x, hx, h1⟩
    · rw [h] at h1
      cases h1
    · rw [h] at h1
      injection h1 with h2
      exact h2 ▸ hx
  intro l
  induction l with
  | nil => intro acc; exact Or.inl rfl
  | cons a t ih =>
    intro acc
    rw [List.foldl_cons]
    by_cases he : a.content.isEmpty
    · rw [if_pos he]
      rcases ih acc with h1 | ⟨x, hx, h1⟩
      · exact Or.inl h1
      · exact Or.inr ⟨x, List.mem_cons_of_mem a hx, h1⟩
    · rw [if_neg he]
      dsimp only
      by_cases hs : scoreChunk (a.content.toList.map Char.toLower) ws > acc.2
      · rw [if_pos hs]
        rcases ih (some a, scoreChunk (a.content.toList.map Char.toLower) ws)
          with h1 | ⟨x, hx, h1⟩
        · exact Or.inr ⟨a, List.mem_cons_self a t, h1⟩
        · exact Or.inr ⟨x, List.mem_cons_of_mem a hx, h1⟩
      · rw [if_neg hs]
        rcases ih acc with h1 | ⟨x, hx, h1⟩
        · exact Or.inl h1
        · exact Or.inr ⟨x, List.mem_cons_of_mem a hx, h1⟩

theorem pickSourceChunk_mem (l : List Chunk) (ws : List (List Char))
    (c : Chunk) (h : pickSourceChunk l ws = some c) : c ∈ l := by
  unfold pickSourceChunk at h
  cases hb : bestSourceChunk l ws with
  | some b =>
    rw [hb] at h
    injection h with h2
    exact h2 ▸ bestSourceChunk_mem l ws b hb
  | none =>
    rw [hb] at h
    simp only [Option.or] at h
    exact List.mem_of_mem_head? h

theorem pickSourceChunk_none_iff (l : List Chunk) (ws : List (List Char)) :
    pickSourceChunk l ws = none ↔ l = [] := by
  constructor
  · intro h
    unfold pickSourceChunk at h
    cases hb : bestSourceChunk l ws with
    | some b => rw [hb] at h; cases h
    | none =>
      rw [hb] at h
      simp only [Option.or] at h
      exact List.head?_eq_none_iff.mp h
  · intro h
    subst h
    rfl

theorem citationForMarker_eq_none_iff (cs : List Char)
    (retrievedChunks : List Chunk) (blueprints : List BlueprintDocument)
    (phrasesOf : String → String → List String) (idx : Nat)
    (inner : List Char) (k : Nat) :
    citationForMarker cs retrievedChunks blueprints phrasesOf idx inner k = none ↔
      sourceChunksFor retrievedChunks blueprints inner = [] := by
  unfold citationForMarker
  cases hp : pickSourceChunk (sourceChunksFor retrievedChunks blueprints inner)
      (contextWordsOf (contextSnippetFor cs idx (9 + inner.length + 1))) with
  | none =>
    constructor
    · intro _
      exact (pickSourceChunk_none_iff _ _).mp hp
    · intro _
      rfl
  | some chunk =>
    constructor
    · intro h
      exact Option.noConfusion h
    · intro h
      rw [h] at hp
      have h2 := (pickSourceChunk_none_iff []
        (contextWordsOf (contextSnippetFor cs idx (9 + inner.length + 1)))).mpr rfl
      rw [h2] at hp
      cases hp

theorem citationForMarker_fields (cs : List Char)
    (retrievedChunks : List Chunk) (blueprints : List BlueprintDocument)
    (phrasesOf : String → String → List String) (idx : Nat)
    (inner : List Char) (k : Nat) (c : Citation)
    (h : citationForMarker cs retrievedChunks blueprints phrasesOf idx inner k =
      some c) :
    ∃ chunk ∈ retrievedChunks,
      c.chunk_id = some chunk.document_id ∧
      c.specific_content = some chunk.content := by
  unfold citationForMarker at h
  cases hp : pickSourceChunk (sourceChunksFor retrievedChunks blueprints inner)
      (contextWordsOf (contextSnippetFor cs idx (9 + inner.length + 1))) with
  | none =>
    rw [hp] at h
    cases h
  | some chunk =>
    rw [hp] at h
    refine ⟨chunk, ?_, ?_, ?_⟩
    · exact List.mem_of_mem_filter (pickSourceChunk_mem _ _ chunk hp)
    · injection h with h2
      rw [← h2]
    · injection h with h2
      rw [← h2]

/-- **C1.** Every Citation produced by `extractCitations` has its
`chunk_id` and `specific_content` taken from a chunk that is a member of
the `retrievedChunks` list passed in; and the number of citations equals
the number of markers whose file/page matches at least one retrieved chunk
— markers matching no retrieved chunk yield no citation. -/
theorem extractCitations_only_retrieved :
    (∀ (finalAnswer : String) (retrievedChunks : List Chunk)
       (blueprints : List BlueprintDocument)
       (phrasesOf : String → String → List String) (c : Citation),
       c ∈ extractCitations finalAnswer retrievedChunks blueprints phrasesOf →
       ∃ chunk ∈ retrievedChunks,
         c.chunk_id = some chunk.document_id ∧
         c.specific_content = some chunk.content) ∧
    (∀ (finalAnswer : String) (retrievedChunks : List Chunk)
       (blueprints : List BlueprintDocument)
       (phrasesOf : String → String → List String),
       (extractCitations finalAnswer retrievedChunks blueprints phrasesOf).length =
         ((markerScan finalAnswer.toList).filter
           (fun m => !((sourceChunksFor retrievedChunks blueprints m.2).isEmpty))).length) := by
  constructor
  · intro finalAnswer retrievedChunks blueprints phrasesOf c hc
    unfold extractCitations at hc
    suffices hgen : ∀ (ms : List (Nat × List Char)) (acc : List Citation),
        (∀ c0 ∈ acc, ∃ chunk ∈ retrievedChunks,
          c0.chunk_id = some chunk.document_id ∧
          c0.specific_content = some chunk.content) →
        ∀ c0 ∈ ms.foldl
          (fun acc m =>
            match citationForMarker finalAnswer.toList retrievedChunks blueprints
                phrasesOf m.1 m.2 acc.length with
            | some c1 => acc ++ [c1]
            | none => acc) acc,
        ∃ chunk ∈ retrievedChunks,
          c0.chunk_id = some chunk.document_id ∧
          c0.specific_content = some chunk.content by
      exact hgen (markerScan finalAnswer.toList) [] (by intro c0 hc0; cases hc0) c hc
    intro ms
    induction ms with
    | nil => intro acc hacc c0 hc0; exact hacc c0 hc0
    | cons m t ih =>
      intro acc hacc c0 hc0
      rw [List.foldl_cons] at hc0
      refine ih _ ?_ c0 hc0
      cases hm : citationForMarker finalAnswer.toList retrievedChunks blueprints
          phrasesOf m.1 m.2 acc.length with
      | none => exact hacc
      | some c1 =>
        intro c2 hc2
        rcases List.mem_append.mp hc2 with h1 | h1
        · exact hacc c2 h1
        · have : c2 = c1 := by simpa using h1
          exact this ▸ citationForMarker_fields _ _ _ _ _ _ _ c1 hm
  · intro finalAnswer retrievedChunks blueprints phrasesOf
    unfold extractCitations
    suffices hgen : ∀ (ms : List (Nat × List Char)) (acc : List Citation),
        (ms.foldl
          (fun acc m =>
            match citationForMarker finalAnswer.toList retrievedChunks blueprints
                phrasesOf m.1 m.2 acc.length with
            | some c1 => acc ++ [c1]
            | none => acc) acc).length =
        acc.length + (ms.filter
          (fun m => !((sourceChunksFor retrievedChunks blueprints m.2).isEmpty))).length by
      simpa using hgen (markerScan finalAnswer.toList) []
    intro ms
    induction ms with
    | nil => intro acc; simp
    | cons m t ih =>
      intro acc
      rw [List.foldl_cons, List.filter_cons]
      by_cases hne : sourceChunksFor retrievedChunks blueprints m.2 = []
      · have hm := (citationForMarker_eq_none_iff finalAnswer.toList
          retrievedChunks blueprints phrasesOf m.1 m.2 acc.length).mpr hne
        simp only [hm]
        rw [if_neg (by simp [hne])]
        exact ih acc
      · have hsome : ∃ c1, citationForMarker finalAnswer.toList retrievedChunks
            blueprints phrasesOf m.1 m.2 acc.length = some c1 := by
          cases hm2 : citationForMarker finalAnswer.toList retrievedChunks
              blueprints phrasesOf m.1 m.2 acc.length with
          | none =>
            exact absurd ((citationForMarker_eq_none_iff _ _ _ _ _ _ _).mp hm2) hne
          | some c1 => exact ⟨c1, rfl⟩
        obtain ⟨c1, hm⟩ := hsome
        simp only [hm]
        rw [if_pos (by simp [List.isEmpty_iff, hne])]
        rw [ih (acc ++ [c1])]
        simp only [List.length_append, List.length_cons, List.length_nil]
        omega

/-- The single retrieved chunk of the C1 witness scenario (§8's example:
`"Revenue grew [SOURCE: report.pdf, Page 3]"`). -/
def chunkC1 : Chunk := ⟨"Revenue grew 12%", 3, "d1"⟩

/-- Its parent blueprint record. -/
def bpC1 : BlueprintDocument := ⟨"d1", "report.pdf", Sum.inl [], none⟩

/-- The answer text of the C1 witness scenario. -/
def answerC1 : String := "Revenue grew [SOURCE: report.pdf, Page 3] strongly."

/-- The citation `extractCitations` produces for `answerC1`. -/
def citationC1 : Citation :=
  { source_file := "report.pdf"
    page_number := some 3
    content_snippet := "Revenue grew  strongly."
    blob_url := some "placeholder"
    chunk_id := some "d1"
    specific_content := some "Revenue grew 12%"
    citation_index := 0
    highlight_phrases := []
    highlighted_html := "Revenue grew 12%"
    page_blueprint := none }

set_option maxRecDepth 40000 in
/-- Witness for C1: on the concrete answer with one marker, extraction
yields exactly `citationC1`, whose `chunk_id`/`specific_content` the
theorem traces back to a member of the retrieved chunk list. -/
theorem extractCitations_only_retrieved_witness :
    extractCitations answerC1 [chunkC1] [bpC1] (fun _ _ => []) = [citationC1] ∧
    (∃ chunk ∈ [chunkC1],
      citationC1.chunk_id = some chunk.document_id ∧
      citationC1.specific_content = some chunk.content) ∧
    (extractCitations answerC1 [chunkC1] [bpC1] (fun _ _ => [])).length =
      ((markerScan answerC1.toList).filter
        (fun m => !((sourceChunksFor [chunkC1] [bpC1] m.2).isEmpty))).length :=
  ⟨by decide,
   extractCitations_only_retrieved.1 answerC1 [chunkC1] [bpC1] (fun _ _ => [])
     citationC1 (by decide),
   extractCitations_only_retrieved.2 answerC1 [chunkC1] [bpC1] (fun _ _ => [])⟩

/-! ## Citation Service: response rewriting
(`stream-handler.ts`, `CitationService.processResponse`) -/

/-- Decimal rendering of a natural number (the `${instanceId}` /
`${sourceNumber}` template interpolations), fuel-indexed so it is
kernel-computable; `fuel = n + 1` always suffices. -/
def natStrAux : Nat → Nat → List Char → List Char
  | 0, _, acc => acc
  | fuel + 1, n, acc =>
    if n < 10 then Char.ofNat (48 + n) :: acc
    else natStrAux fuel (n / 10) (Char.ofNat (48 + n % 10) :: acc)

/-- See `natStrAux`. -/
def natStr (n : Nat) : List Char :=
  natStrAux (n + 1) n []

/-- `` `<sup data-citation-instance="${instanceId}">[${sourceNumber}]</sup>` ``. -/
def supTag (instanceId number : Nat) : List Char :=
  "<sup data-citation-instance=\"".toList ++ natStr instanceId ++
    "\">[".toList ++ natStr number ++ "]</sup>".toList

/-- The `sourceMap` building pass of `processResponse`: first-seen source
files are numbered 1, 2, … (`sourceCounter` always equals the map size
plus one at insertion time). -/
def buildSourceMap (citations : List Citation) : List (String × Nat) :=
  citations.foldl
    (fun m c =>
      if (m.find? (fun e => e.1 == c.source_file)).isSome then m
      else m ++ [(c.source_file, m.length + 1)])
    []

/-- `sourceMap.get(parts[0]) || 1`. -/
def numberFor (smap : List (String × Nat)) (inner : List Char) : Nat :=
  match smap.find? (fun e => e.1 == sourceFileOf inner) with
  | some e => e.2
  | none => 1

/-- The marker-replacement pass of `processResponse`
(`finalAnswer.replace(/\[SOURCE: ([^\]]+)\]/g, callback)`): the same
left-to-right scan as `markerScanFuel`, replacing each match by a `supTag`
with the per-occurrence instance counter and the file's source number. -/
def replaceMarkersFuel : Nat → List (String × Nat) → Nat → List Char → List Char
  | 0, _, _, cs => cs
  | _ + 1, _, _, [] => []
  | fuel + 1, smap, counter, c :: rest =>
    if markerLead.isPrefixOf (c :: rest) then
      let afterLead := (c :: rest).drop 9
      let inner := afterLead.takeWhile (fun d => d ≠ ']')
      if inner.length > 0 ∧ ¬(afterLead.drop inner.length).isEmpty then
        supTag counter (numberFor smap inner) ++
          replaceMarkersFuel fuel smap (counter + 1)
            ((c :: rest).drop (9 + inner.length + 1))
      else c :: replaceMarkersFuel fuel smap counter rest
    else c :: replaceMarkersFuel fuel smap counter rest

/-- The phrase-wrapping pass at the end of `processResponse`: every
citation's highlight phrases are wrapped with `\b…\b` boundaries
(unconditionally, unlike `applyHighlighting`). -/
def phrasePass (citations : List Citation) (cs : List Char) : List Char :=
  citations.foldl
    (fun acc c =>
      c.highlight_phrases.foldl
        (fun acc2 ph => jsReplacePhrase true ph.toList acc2) acc)
    cs

/-- `CitationService.processResponse`. -/
def processResponse (finalAnswer : String) (citations : List Citation) : String :=
  String.mk (phrasePass citations
    (replaceMarkersFuel finalAnswer.toList.length (buildSourceMap citations) 0
      finalAnswer.toList))

/-- The marker decomposition of an answer: the leading non-marker segment,
then for each marker (in order) its inner text and the following segment.
It mirrors the scan of `markerScanFuel`/`replaceMarkersFuel` exactly. -/
def markerSplitFuel : Nat → List Char → List Char × List (List Char × List Char)
  | 0, cs => (cs, [])
  | _ + 1, [] => ([], [])
  | fuel + 1, c :: rest =>
    if markerLead.isPrefixOf (c :: rest) then
      let afterLead := (c :: rest).drop 9
      let inner := afterLead.takeWhile (fun d => d ≠ ']')
      if inner.length > 0 ∧ ¬(afterLead.drop inner.length).isEmpty then
        let r := markerSplitFuel fuel ((c :: rest).drop (9 + inner.length + 1))
        ([], (inner, r.1) :: r.2)
      else
        let r := markerSplitFuel fuel rest
        (c :: r.1, r.2)
    else
      let r := markerSplitFuel fuel rest
      (c :: r.1, r.2)

/-- See `markerSplitFuel`. -/
def markerSplit (cs : List Char) : List Char × List (List Char × List Char) :=
  markerSplitFuel cs.length cs

/-- The rendered form of the marker-replacement pass: each marker of the
decomposition becomes a `supTag` carrying the next instance id and its
file's source number, followed by its trailing segment. -/
def renderTail (smap : List (String × Nat)) (counter : Nat) :
    List (List Char × List Char) → List Char
  | [] => []
  | (inner, seg) :: ms =>
    supTag counter (numberFor smap inner) ++ seg ++
      renderTail smap (counter + 1) ms

theorem takeWhile_eq_take_length {α : Type} (p : α → Bool) (l : List α) :
    l.takeWhile p = l.take (l.takeWhile p).length := by
  induction l with
  | nil => rfl
  | cons a t ih =>
    cases hp : p a with
    | true =>
      rw [List.takeWhile_cons_of_pos hp]
      simp only [List.length_cons, List.take_succ_cons]
      exact congrArg (a :: ·) ih
    | false =>
      rw [List.takeWhile_cons_of_neg (by simp [hp])]
      rfl

theorem drop_length_takeWhile {α : Type} (p : α → Bool) (l : List α) :
    l.drop (l.takeWhile p).length = l.dropWhile p := by
  induction l with
  | nil => rfl
  | cons a t ih =>
    cases hp : p a with
    | true =>
      rw [List.takeWhile_cons_of_pos hp, List.dropWhile_cons_of_pos hp]
      simpa using ih
    | false =>
      rw [List.takeWhile_cons_of_neg (by simp [hp]),
        List.dropWhile_cons_of_neg (by simp [hp])]
      rfl

theorem dropWhile_head_not {α : Type} (p : α → Bool) :
    ∀ (l : List α) (x : α) (t : List α), l.dropWhile p = x :: t → p x = false := by
  intro l
  induction l with
  | nil => intro x t h; simp at h
  | cons a r ih =>
    intro x t h
    cases hp : p a with
    | true => rw [List.dropWhile_cons_of_pos hp] at h; exact ih x t h
    | false =>
      rw [List.dropWhile_cons_of_neg (by simp [hp])] at h
      cases h
      exact hp

theorem replaceMarkers_eq_render (smap : List (String × Nat)) :
    ∀ (fuel counter : Nat) (cs : List Char),
    replaceMarkersFuel fuel smap counter cs =
      (markerSplitFuel fuel cs).1 ++
        renderTail smap counter (markerSplitFuel fuel cs).2 := by
  intro fuel
  induction fuel with
  | zero =>
    intro counter cs
    simp [replaceMarkersFuel, markerSplitFuel, renderTail]
  | succ fuel ih =>
    intro counter cs
    cases cs with
    | nil => simp [replaceMarkersFuel, markerSplitFuel, renderTail]
    | cons c rest =>
      simp only [replaceMarkersFuel, markerSplitFuel]
      split_ifs with h1 h2
      · simp only [renderTail]
        rw [ih]
        simp [List.append_assoc]
      · simp only [List.cons_append]
        rw [ih]
      · simp only [List.cons_append]
        rw [ih]

theorem markerSplit_reconstruct :
    ∀ (fuel : Nat) (cs : List Char),
    cs = (markerSplitFuel fuel cs).1 ++
      (((markerSplitFuel fuel cs).2.map
        (fun m => markerLead ++ m.1 ++ ']' :: m.2)).flatten) := by
  intro fuel
  induction fuel with
  | zero => intro cs; simp [markerSplitFuel]
  | succ fuel ih =>
    intro cs
    cases cs with
    | nil => simp [markerSplitFuel]
    | cons c rest =>
      simp only [markerSplitFuel]
      split_ifs with h1 h2
      · obtain ⟨u, hu⟩ := List.isPrefixOf_iff_prefix.mp h1
        have hu9 : (c :: rest).drop 9 = u := by
          rw [← hu]
          have h9 : markerLead.length = 9 := by decide
          rw [← h9, List.drop_left]
        have hne : u.dropWhile (fun d => decide (d ≠ ']')) ≠ [] := by
          rw [hu9] at h2
          rw [← drop_length_takeWhile]
          intro hnil
          rw [hnil] at h2
          simp at h2
        obtain ⟨v, hv'⟩ : ∃ v, u.dropWhile (fun d => decide (d ≠ ']')) =
            ']' :: v := by
          obtain ⟨x, t, hxt⟩ := List.exists_cons_of_ne_nil hne
          have hx := dropWhile_head_not (fun d => decide (d ≠ ']')) u x t hxt
          simp at hx
          exact ⟨t, by rw [hxt, hx]⟩
        have hv : u.drop (u.takeWhile (fun d => decide (d ≠ ']')) ).length =
            ']' :: v := by
          rw [drop_length_takeWhile]
          exact hv'
        have husplit : u = u.takeWhile (fun d => decide (d ≠ ']')) ++
            ']' :: v := by
          conv_lhs => rw [← List.take_append_drop
            ((u.takeWhile (fun d => decide (d ≠ ']')) ).length) u]
          rw [← takeWhile_eq_take_length, hv]
        have hvdrop : (c :: rest).drop
            (9 + (u.takeWhile (fun d => decide (d ≠ ']')) ).length + 1) = v := by
          have h6 : (9 : Nat) + (u.takeWhile (fun d => decide (d ≠ ']')) ).length + 1 =
              9 + ((u.takeWhile (fun d => decide (d ≠ ']')) ).length + 1) := by omega
          rw [h6, ← List.drop_drop, hu9, ← List.drop_drop, hv]
          rfl
        simp only [List.map_cons, List.flatten_cons, hu9]
        rw [hvdrop]
        conv_lhs => rw [← hu, husplit]
        conv_lhs => rw [ih v]
        simp only [List.cons_append, List.append_assoc, List.nil_append]
      · simp only [List.cons_append]
        exact congrArg (c :: ·) (ih rest)
      · simp only [List.cons_append]
        exact congrArg (c :: ·) (ih rest)

/-! ### C8 safety framework: no raw `[SOURCE: …]` marker survives -/

/-- The tail of the marker lead-in: `SOURCE: `. -/
def srcTail : List Char := "SOURCE: ".toList

theorem markerLead_cons : markerLead = '[' :: srcTail := by decide

/-- `cs` contains no regex match of `\[SOURCE: ([^\]]+)\]`: after every
occurrence of the lead-in the text either closes immediately (empty
capture) or never reaches a `]`. -/
def leadSafe (cs : List Char) : Prop :=
  ∀ b a, cs = b ++ (markerLead ++ a) → a.head? = some ']' ∨ ']' ∉ a

/-- Every occurrence of the lead-in closes immediately. -/
def leadStrict (cs : List Char) : Prop :=
  ∀ b a, cs = b ++ (markerLead ++ a) → a.head? = some ']'

theorem lead_mem_lbrack : ('[' : Char) ∈ markerLead := by decide

theorem not_occ_of_not_mem (Z b a : List Char) (h : ('[' : Char) ∉ Z) :
    Z ≠ b ++ (markerLead ++ a) := by
  intro he
  apply h
  rw [he]
  simp only [List.mem_append]
  exact Or.inr (Or.inl lead_mem_lbrack)

theorem occ_split {α : Type} (X Y b L a : List α) (h : X ++ Y = b ++ (L ++ a)) :
    (∃ a₁, X = b ++ (L ++ a₁) ∧ a = a₁ ++ Y) ∨
    (∃ b₁, b = X ++ b₁ ∧ Y = b₁ ++ (L ++ a)) ∨
    (∃ L₁ L₂, L = L₁ ++ L₂ ∧ L₁ ≠ [] ∧ L₂ ≠ [] ∧ X = b ++ L₁ ∧ Y = L₂ ++ a) := by
  rcases List.append_eq_append_iff.mp h with ⟨u, hb, hY⟩ | ⟨u, hX, hu⟩
  · exact Or.inr (Or.inl ⟨u, hb, hY⟩)
  · rcases List.append_eq_append_iff.mp hu with ⟨v, hc, ha⟩ | ⟨v, hL, hY⟩
    · exact Or.inl ⟨v, by rw [hX, hc], ha⟩
    · cases hue : u with
      | nil =>
        refine Or.inr (Or.inl ⟨[], by simp [hX, hue], ?_⟩)
        rw [List.nil_append, hL, hue, List.nil_append]
        exact hY
      | cons u0 u' =>
        cases hve : v with
        | nil =>
          refine Or.inl ⟨[], ?_, ?_⟩
          · rw [hX, hL, hve, List.append_nil, List.append_nil]
          · rw [hY, hve, List.nil_append, List.nil_append]
        | cons v0 v' =>
          exact Or.inr (Or.inr ⟨u, v, hL, by rw [hue]; exact List.cons_ne_nil u0 u',
            by rw [hve]; exact List.cons_ne_nil v0 v', hX, hY⟩)

theorem lead_of_append_left (X Y b a : List Char) (hX : ('[' : Char) ∉ X)
    (h : X ++ Y = b ++ (markerLead ++ a)) :
    ∃ b₁, b = X ++ b₁ ∧ Y = b₁ ++ (markerLead ++ a) := by
  rcases occ_split X Y b markerLead a h with ⟨a₁, h1, _⟩ | h2 | ⟨L₁, L₂, hL, hL1, _, hX1, _⟩
  · exact absurd h1 (not_occ_of_not_mem X b a₁ hX)
  · exact h2
  · exfalso
    cases L₁ with
    | nil => exact hL1 rfl
    | cons y t =>
      rw [markerLead_cons] at hL
      injection hL with hy _
      apply hX
      rw [hX1, ← hy]
      simp

theorem leadSafe_append_left (t cs : List Char) (h : leadSafe (t ++ cs)) : leadSafe cs := by
  intro b a hd
  exact h (t ++ b) a (by rw [hd, List.append_assoc])

theorem leadSafe_cons (c : Char) (cs : List Char) (h : leadSafe (c :: cs)) : leadSafe cs :=
  leadSafe_append_left [c] cs h

theorem leadSafe_drop (n : Nat) (cs : List Char) (h : leadSafe cs) : leadSafe (cs.drop n) :=
  leadSafe_append_left (cs.take n) _ (by rw [List.take_append_drop]; exact h)

theorem toLower_eq_of_nonalpha (x t : Char) (ht : ¬(97 ≤ t.toNat ∧ t.toNat ≤ 122))
    (h : x.toLower = t) : x = t := by
  unfold Char.toLower at h
  simp only [] at h
  by_cases hr : x.toNat ≥ 65 ∧ x.toNat ≤ 90
  · rw [if_pos hr] at h
    exfalso
    have hv : (x.toNat + 32).isValidChar := by left; omega
    have h1 : (Char.ofNat (x.toNat + 32)).toNat = x.toNat + 32 := by
      unfold Char.ofNat
      rw [dif_pos hv]
      unfold Char.ofNatAux Char.toNat
      rfl
    rw [h] at h1
    omega
  · rw [if_neg hr] at h
    exact h

theorem toLower_space (x : Char) (h : x.toLower = ' ') : x = ' ' :=
  toLower_eq_of_nonalpha x ' ' (by decide) h

theorem toLower_rbrack (x : Char) (h : x.toLower = ']') : x = ']' :=
  toLower_eq_of_nonalpha x ']' (by decide) h

theorem natStrAux_append : ∀ (fuel n : Nat) (acc : List Char),
    ∃ s, natStrAux fuel n acc = s ++ acc := by
  intro fuel
  induction fuel with
  | zero => intro n acc; exact ⟨[], rfl⟩
  | succ fuel ih =>
    intro n acc
    by_cases h : n < 10
    · refine ⟨[Char.ofNat (48 + n)], ?_⟩
      simp only [natStrAux]
      rw [if_pos h]
      rfl
    · obtain ⟨s, hs⟩ := ih (n / 10) (Char.ofNat (48 + n % 10) :: acc)
      refine ⟨s ++ [Char.ofNat (48 + n % 10)], ?_⟩
      simp only [natStrAux]
      rw [if_neg h, hs]
      simp

theorem natStr_ne_nil (n : Nat) : natStr n ≠ [] := by
  unfold natStr
  by_cases h : n < 10
  · simp only [natStrAux]
    rw [if_pos h]
    exact List.cons_ne_nil _ _
  · simp only [natStrAux]
    rw [if_neg h]
    obtain ⟨s, hs⟩ := natStrAux_append n (n / 10) [Char.ofNat (48 + n % 10)]
    rw [hs]
    simp

theorem digit_char_isDigit (m : Nat) (h : m < 10) : (Char.ofNat (48 + m)).isDigit = true := by
  interval_cases m <;> decide

theorem natStrAux_digits : ∀ (fuel n : Nat) (acc : List Char),
    (∀ c ∈ acc, c.isDigit = true) → ∀ c ∈ natStrAux fuel n acc, c.isDigit = true := by
  intro fuel
  induction fuel with
  | zero => intro n acc hacc; exact hacc
  | succ fuel ih =>
    intro n acc hacc c hc
    by_cases h : n < 10
    · simp only [natStrAux] at hc
      rw [if_pos h] at hc
      rcases List.mem_cons.mp hc with h1 | h1
      · rw [h1]; exact digit_char_isDigit n h
      · exact hacc c h1
    · simp only [natStrAux] at hc
      rw [if_neg h] at hc
      refine ih (n / 10) _ ?_ c hc
      intro d hd
      rcases List.mem_cons.mp hd with h1 | h1
      · rw [h1]; exact digit_char_isDigit (n % 10) (Nat.mod_lt n (by norm_num))
      · exact hacc d h1

theorem natStr_digits (n : Nat) (c : Char) (hc : c ∈ natStr n) : c.isDigit = true :=
  natStrAux_digits (n + 1) n [] (by intro d hd; simp at hd) c hc

theorem lbrack_not_mem_natStr (n : Nat) : ('[' : Char) ∉ natStr n := by
  intro h
  exact absurd (natStr_digits n '[' h) (by decide)

theorem supTag_no_lead (i n : Nat) (b a : List Char) :
    supTag i n ≠ b ++ (markerLead ++ a) := by
  intro h
  unfold supTag at h
  rw [show ("\">[".toList : List Char) = "\">".toList ++ ['['] from by decide] at h
  simp only [List.append_assoc, List.singleton_append] at h
  obtain ⟨b₁, _, h1⟩ :=
    lead_of_append_left "<sup data-citation-instance=\"".toList _ b a (by decide) h
  obtain ⟨b₂, _, h2⟩ := lead_of_append_left (natStr i) _ b₁ a (lbrack_not_mem_natStr i) h1
  obtain ⟨b₃, _, h3⟩ := lead_of_append_left "\">".toList _ b₂ a (by decide) h2
  cases b₃ with
  | nil =>
    rw [List.nil_append, markerLead_cons] at h3
    injection h3 with _ h4
    simp only [List.append_eq] at h4
    obtain ⟨d, nN', hd⟩ := List.exists_cons_of_ne_nil (natStr_ne_nil n)
    rw [hd] at h4
    have h5 := congrArg List.head? h4
    rw [List.head?_append_of_ne_nil _ (List.cons_ne_nil d nN'),
      show srcTail = 'S' :: "OURCE: ".toList from by decide,
      List.head?_append_of_ne_nil _ (List.cons_ne_nil 'S' _)] at h5
    simp only [List.head?_cons, Option.some.injEq] at h5
    have hdig : d.isDigit = true := natStr_digits n d (by rw [hd]; exact List.mem_cons_self d nN')
    rw [h5] at hdig
    exact absurd hdig (by decide)
  | cons y b₄ =>
    injection h3 with _ h4
    simp only [List.append_eq] at h4
    obtain ⟨b₅, _, h5⟩ := lead_of_append_left (natStr n) _ b₄ a (lbrack_not_mem_natStr n) h4
    exact (not_occ_of_not_mem _ b₅ a (by decide)) h5

set_option maxRecDepth 4000 in
theorem markOpen_eq : markOpen =
    '<' :: "mark class=\"bg-muted text-foreground font-semibold rounded px-1 py-0.5\">".toList := by
  decide

theorem markClose_eq : markClose = '<' :: "/mark>".toList := by decide

theorem noClose_scan : ∀ (fuel : Nat) (useWB : Bool) (w : List Char) (prev : Option Char)
    (cs : List Char), (']' : Char) ∉ cs →
    (']' : Char) ∉ jsReplacePhraseFuel fuel useWB w prev cs := by
  intro fuel
  induction fuel with
  | zero => intro useWB w prev cs h; exact h
  | succ fuel ih =>
    intro useWB w prev cs h
    cases cs with
    | nil => simp [jsReplacePhraseFuel]
    | cons c rest =>
      have hc : (']' : Char) ≠ c := fun he => h (he ▸ List.mem_cons_self c rest)
      have hrest : (']' : Char) ∉ rest := fun hm => h (List.mem_cons_of_mem c hm)
      have hmo : (']' : Char) ∉ markOpen := by decide
      have hmc : (']' : Char) ∉ markClose := by decide
      simp only [jsReplacePhraseFuel]
      split_ifs with h1 h2
      · intro hm
        simp only [List.mem_append, List.mem_cons] at hm
        have hrec := ih useWB w (some c) rest hrest
        tauto
      · intro hm
        simp only [List.mem_append, List.mem_cons] at hm
        have htake : (']' : Char) ∉ (c :: rest).take w.length :=
          fun hx => h (List.mem_of_mem_take hx)
        have hrec := ih useWB w (some (((c :: rest).take w.length).getLast?.getD c))
          ((c :: rest).drop w.length) (fun hx => h (List.mem_of_mem_drop hx))
        tauto
      · intro hm
        simp only [List.mem_cons] at hm
        have hrec := ih useWB w (some c) rest hrest
        tauto

theorem copy_align : ∀ (fuel : Nat) (useWB : Bool) (w : List Char) (prev : Option Char)
    (cs s t : List Char), jsReplacePhraseFuel fuel useWB w prev cs = s ++ t →
    ('<' : Char) ∉ s →
    ∃ fuel₂ prev₂ cs₂, cs = s ++ cs₂ ∧
      t = jsReplacePhraseFuel fuel₂ useWB w prev₂ cs₂ ∧
      (s = [] → prev₂ = prev) ∧
      (∀ h : s ≠ [], prev₂ = some (s.getLast h)) := by
  intro fuel
  induction fuel with
  | zero =>
    intro useWB w prev cs s t h hs
    cases s with
    | nil => exact ⟨0, prev, t, h, rfl, fun _ => rfl, fun hne => absurd rfl hne⟩
    | cons s0 s' =>
      exact ⟨0, some ((s0 :: s').getLast (List.cons_ne_nil s0 s')), t, h, rfl,
        fun he => absurd he (List.cons_ne_nil s0 s'), fun _ => rfl⟩
  | succ fuel ih =>
    intro useWB w prev cs s t h hs
    cases s with
    | nil =>
      refine ⟨fuel + 1, prev, cs, rfl, ?_, fun _ => rfl, fun hne => absurd rfl hne⟩
      rw [List.nil_append] at h
      exact h.symm
    | cons s0 s' =>
      cases cs with
      | nil => simp [jsReplacePhraseFuel] at h
      | cons c rest =>
        simp only [jsReplacePhraseFuel] at h
        split_ifs at h with h1 h2
        · exfalso
          rw [markOpen_eq] at h
          simp only [List.cons_append, List.append_assoc] at h
          injection h with h3 _
          exact hs (by rw [← h3]; exact List.mem_cons_self _ _)
        · exfalso
          rw [markOpen_eq] at h
          simp only [List.cons_append, List.append_assoc] at h
          injection h with h3 _
          exact hs (by rw [← h3]; exact List.mem_cons_self _ _)
        · injection h with h3 h4
          simp only [List.append_eq] at h4
          obtain ⟨fuel₂, prev₂, cs₂, hcs, ht, hp1, hp2⟩ := ih useWB w (some c) rest s' t h4
            (fun hm => hs (List.mem_cons_of_mem s0 hm))
          refine ⟨fuel₂, prev₂, cs₂, ?_, ht, fun he => absurd he (List.cons_ne_nil s0 s'), ?_⟩
          · rw [List.cons_append, ← hcs, h3]
          · intro hne
            by_cases hse : s' = []
            · subst hse
              rw [hp1 rfl, h3]
              simp
            · rw [hp2 hse, List.getLast_cons hse]

theorem boundary_snd (w : List Char) (hw : w ≠ []) (prev : Option Char) (cs : List Char)
    (hb : boundaryOk w prev cs = true) :
    (isWordChar (w.getLast hw) != optIsWord ((cs.drop w.length).head?)) = true := by
  cases w with
  | nil => exact absurd rfl hw
  | cons w0 w' =>
    simp only [boundaryOk] at hb
    rw [Bool.and_eq_true] at hb
    exact hb.2

theorem scan_head_rbrack (fuel : Nat) (w cs₃ : List Char) :
    (jsReplacePhraseFuel fuel true w (some ' ') (']' :: cs₃)).head? = some ']' := by
  cases fuel with
  | zero => rfl
  | succ fuel =>
    have hcond : (ciIsPrefixOf w (']' :: cs₃) &&
        (!true || boundaryOk w (some ' ') (']' :: cs₃))) = false := by
      cases w with
      | nil =>
        have hb : boundaryOk [] (some ' ') (']' :: cs₃) = false := rfl
        rw [hb]
        simp
      | cons w0 w' =>
        by_cases hci : ciIsPrefixOf (w0 :: w') (']' :: cs₃) = true
        · have hw0 : w0 = ']' := by
            unfold ciIsPrefixOf at hci
            rw [Bool.and_eq_true] at hci
            have hmap := eq_of_beq hci.2
            rw [show (w0 :: w').length = w'.length + 1 from rfl, List.take_succ_cons,
              List.map_cons, List.map_cons] at hmap
            injection hmap with hh _
            exact toLower_rbrack w0 (by rw [← hh]; decide)
          have hb : boundaryOk (w0 :: w') (some ' ') (']' :: cs₃) = false := by
            simp only [boundaryOk, hw0]
            have h1 : (optIsWord (some ' ') != isWordChar ']') = false := by decide
            rw [h1, Bool.false_and]
          rw [hci, hb]
          simp
        · have hci' : ciIsPrefixOf (w0 :: w') (']' :: cs₃) = false := by
            revert hci
            cases ciIsPrefixOf (w0 :: w') (']' :: cs₃) <;> simp
          rw [hci', Bool.false_and]
    simp only [jsReplacePhraseFuel]
    have hfalse : ¬((ciIsPrefixOf w (']' :: cs₃) &&
        (!true || boundaryOk w (some ' ') (']' :: cs₃))) = true) := by
      rw [hcond]
      simp
    rw [if_neg hfalse]
    rfl

theorem leadSafe_cons_case (w : List Char) (fuel : Nat)
    (ih : ∀ (prev : Option Char) (cs : List Char), leadSafe cs →
      leadSafe (jsReplacePhraseFuel fuel true w prev cs))
    (c : Char) (rest : List Char) (hG : leadSafe (c :: rest)) :
    ∀ b a, c :: jsReplacePhraseFuel fuel true w (some c) rest = b ++ (markerLead ++ a) →
      a.head? = some ']' ∨ ']' ∉ a := by
  intro b a h
  cases b with
  | nil =>
    rw [List.nil_append, markerLead_cons] at h
    injection h with h1 h2
    simp only [List.append_eq] at h2
    obtain ⟨fuel₂, prev₂, cs₂, hcs, ht, _, hp2⟩ :=
      copy_align fuel true w (some c) rest srcTail a h2 (by decide)
    have hne : srcTail ≠ [] := by decide
    have hprev : prev₂ = some ' ' := by
      have h9 : srcTail.getLast hne = ' ' := by
        have h10 : srcTail.getLast? = some ' ' := by decide
        rw [List.getLast?_eq_getLast srcTail hne] at h10
        exact Option.some.inj h10
      rw [hp2 hne, h9]
    have hocc : c :: rest = [] ++ (markerLead ++ cs₂) := by
      rw [List.nil_append, markerLead_cons, List.cons_append, ← hcs, h1]
    rcases hG [] cs₂ hocc with hh | hh
    · cases cs₂ with
      | nil => simp at hh
      | cons d cs₃ =>
        simp only [List.head?_cons, Option.some.injEq] at hh
        subst hh
        left
        rw [ht, hprev]
        exact scan_head_rbrack fuel₂ w cs₃
    · right
      rw [ht]
      exact noClose_scan fuel₂ true w prev₂ cs₂ hh
  | cons b0 b' =>
    injection h with _ h2
    simp only [List.append_eq] at h2
    exact ih (some c) rest (leadSafe_cons c rest hG) b' a h2

theorem leadSafe_scan : ∀ (fuel : Nat) (w : List Char) (prev : Option Char) (cs : List Char),
    leadSafe cs → leadSafe (jsReplacePhraseFuel fuel true w prev cs) := by
  intro fuel
  induction fuel with
  | zero => intro w prev cs h; exact h
  | succ fuel ih =>
    intro w prev cs hG
    cases cs with
    | nil =>
      intro b a h
      simp only [jsReplacePhraseFuel] at h
      exact absurd h (not_occ_of_not_mem [] b a (by simp))
    | cons c rest =>
      simp only [jsReplacePhraseFuel]
      split_ifs with h1 h2
      · intro b a h
        simp only [List.append_assoc] at h
        obtain ⟨b₁, _, h3⟩ := lead_of_append_left markOpen _ b a (by decide) h
        obtain ⟨b₂, _, h4⟩ := lead_of_append_left markClose _ b₁ a (by decide) h3
        exact leadSafe_cons_case w fuel (fun prev cs hq => ih w prev cs hq) c rest hG b₂ a h4
      · intro b a h
        simp only [List.append_assoc] at h
        obtain ⟨b₁, _, h3⟩ := lead_of_append_left markOpen _ b a (by decide) h
        rcases occ_split ((c :: rest).take w.length) _ b₁ markerLead a h3 with
          ⟨a₁, hm, ha⟩ | ⟨b₂, _, h4⟩ | ⟨L₁, L₂, hL, _, hL2, _, hY1⟩
        · simp only [Bool.not_true, Bool.false_or, Bool.and_eq_true] at h1
          obtain ⟨hci, hb⟩ := h1
          have hwne : w ≠ [] := fun hwe => h2 (by rw [hwe]; rfl)
          unfold ciIsPrefixOf at hci
          rw [Bool.and_eq_true] at hci
          have hmap : ((c :: rest).take w.length).map Char.toLower = w.map Char.toLower :=
            eq_of_beq hci.2
          cases a₁ with
          | nil =>
            rw [List.append_nil] at hm
            right
            rw [ha, List.nil_append]
            have hlast : ((c :: rest).take w.length).getLast? = some ' ' := by
              rw [hm, List.getLast?_append_of_ne_nil b₁ (by decide : markerLead ≠ [])]
              decide
            have hwlast : w.getLast? = some ' ' := by
              have h5 := congrArg List.getLast? hmap
              rw [List.getLast?_map, List.getLast?_map, hlast] at h5
              cases hwl : w.getLast? with
              | none => rw [hwl] at h5; simp at h5
              | some x =>
                rw [hwl] at h5
                simp only [Option.map_some'] at h5
                rw [show Char.toLower ' ' = ' ' from by decide] at h5
                injection h5 with h6
                rw [toLower_space x h6.symm]
            have hbs := boundary_snd w hwne prev (c :: rest) hb
            have hglast : w.getLast hwne = ' ' := by
              have h7 := List.getLast?_eq_getLast w hwne
              rw [hwlast] at h7
              exact (Option.some.inj h7).symm
            rw [hglast, show isWordChar ' ' = false from by decide] at hbs
            have hinput : c :: rest = b₁ ++ (markerLead ++ (c :: rest).drop w.length) := by
              conv_lhs => rw [← List.take_append_drop w.length (c :: rest)]
              rw [hm, List.append_assoc]
            rcases hG b₁ _ hinput with hh | hh
            · exfalso
              rw [hh] at hbs
              exact absurd hbs (by decide)
            · intro hmem
              simp only [List.mem_append] at hmem
              rcases hmem with h6 | h6
              · exact absurd h6 (by decide)
              · exact noClose_scan fuel true w
                  (some (((c :: rest).take w.length).getLast?.getD c))
                  ((c :: rest).drop w.length) hh h6
          | cons x a₁' =>
            have hinput : c :: rest =
                b₁ ++ (markerLead ++ ((x :: a₁') ++ (c :: rest).drop w.length)) := by
              conv_lhs => rw [← List.take_append_drop w.length (c :: rest)]
              rw [hm]
              simp [List.append_assoc]
            rcases hG b₁ _ hinput with hh | hh
            · left
              rw [ha]
              rw [List.head?_append_of_ne_nil _ (List.cons_ne_nil x a₁')] at hh ⊢
              exact hh
            · right
              rw [ha]
              have h6 : (']' : Char) ∉ (x :: a₁') := fun hq => hh (List.mem_append_left _ hq)
              have h7 : (']' : Char) ∉ (c :: rest).drop w.length :=
                fun hq => hh (List.mem_append_right _ hq)
              have h8 : (']' : Char) ∉ markClose := by decide
              have h9 := noClose_scan fuel true w
                (some (((c :: rest).take w.length).getLast?.getD c))
                ((c :: rest).drop w.length) h7
              intro hmem
              simp only [List.mem_append, List.mem_cons] at hmem h6
              tauto
        · obtain ⟨b₃, _, h5⟩ := lead_of_append_left markClose _ b₂ a (by decide) h4
          exact ih w (some (((c :: rest).take w.length).getLast?.getD c))
            ((c :: rest).drop w.length) (leadSafe_drop w.length _ hG) b₃ a h5
        · exfalso
          cases L₂ with
          | nil => exact hL2 rfl
          | cons y L₂' =>
            rw [markClose_eq] at hY1
            simp only [List.cons_append] at hY1
            injection hY1 with hy _
            have hyl : y ∈ markerLead := by rw [hL]; simp
            rw [← hy] at hyl
            exact absurd hyl (by decide)
      · intro b a h
        exact leadSafe_cons_case w fuel (fun prev cs hq => ih w prev cs hq) c rest hG b a h

/-- All segments of the marker scan except the last close every lead-in
immediately; the last segment merely never completes a marker. -/
def markerSegsOK : List (List Char) → Prop
  | [] => True
  | [s] => leadSafe s
  | s :: s' :: rest => leadStrict s ∧ markerSegsOK (s' :: rest)

theorem markerSegsOK_single (s : List Char) : markerSegsOK [s] = leadSafe s := rfl

theorem markerSegsOK_cons₂ (s s' : List Char) (rest : List (List Char)) :
    markerSegsOK (s :: s' :: rest) = (leadStrict s ∧ markerSegsOK (s' :: rest)) := rfl

theorem leadSafe_nil : leadSafe [] :=
  fun b a h => absurd h (not_occ_of_not_mem [] b a (by simp))

theorem leadStrict_nil : leadStrict [] :=
  fun b a h => absurd h (not_occ_of_not_mem [] b a (by simp))

theorem markerSegsOK_cons_head (c : Char) (s : List Char) (tail : List (List Char))
    (hok : markerSegsOK (s :: tail))
    (hnew0 : ∀ a, c :: s = markerLead ++ a →
      (tail.isEmpty = true → a.head? = some ']' ∨ ']' ∉ a) ∧
      (tail.isEmpty = false → a.head? = some ']')) :
    markerSegsOK ((c :: s) :: tail) := by
  cases tail with
  | nil =>
    rw [markerSegsOK_single] at hok ⊢
    intro b a h
    cases b with
    | nil =>
      rw [List.nil_append] at h
      exact (hnew0 a h).1 rfl
    | cons b0 b' =>
      injection h with _ h2
      simp only [List.append_eq] at h2
      exact hok b' a h2
  | cons t ts =>
    rw [markerSegsOK_cons₂] at hok ⊢
    refine ⟨?_, hok.2⟩
    intro b a h
    cases b with
    | nil =>
      rw [List.nil_append] at h
      exact (hnew0 a h).2 rfl
    | cons b0 b' =>
      injection h with _ h2
      simp only [List.append_eq] at h2
      exact hok.1 b' a h2

theorem flat_rbrack (ms : List (List Char × List Char)) (h : ms ≠ []) :
    (']' : Char) ∈ (ms.map (fun m => markerLead ++ m.1 ++ ']' :: m.2)).flatten := by
  cases ms with
  | nil => exact absurd rfl h
  | cons m rest =>
    simp only [List.map_cons, List.flatten_cons]
    simp

theorem flat_nil (ms : List (List Char × List Char))
    (h : (ms.map (fun m => markerLead ++ m.1 ++ ']' :: m.2)).flatten = []) : ms = [] := by
  cases ms with
  | nil => rfl
  | cons m rest =>
    simp only [List.map_cons, List.flatten_cons] at h
    rw [List.append_eq_nil] at h
    have h1 := h.1
    rw [List.append_eq_nil] at h1
    have h2 := h1.1
    rw [List.append_eq_nil] at h2
    exact absurd h2.1 (by decide)

theorem flat_head (m : List Char × List Char) (rest' : List (List Char × List Char)) :
    ((((m :: rest').map (fun m => markerLead ++ m.1 ++ ']' :: m.2)).flatten)).head? =
      some '[' := by
  simp only [List.map_cons, List.flatten_cons]
  rw [List.head?_append_of_ne_nil _ (by simp [markerLead_cons]),
    List.head?_append_of_ne_nil _ (by simp [markerLead_cons]),
    List.head?_append_of_ne_nil _ (by simp [markerLead_cons]), markerLead_cons]
  rfl

theorem takeWhile_nil_cases {α : Type} (p : α → Bool) (l : List α) (h : l.takeWhile p = []) :
    l = [] ∨ ∃ x t, l = x :: t ∧ p x = false := by
  cases l with
  | nil => exact Or.inl rfl
  | cons a t =>
    cases hp : p a with
    | true =>
      rw [List.takeWhile_cons_of_pos hp] at h
      exact absurd h (List.cons_ne_nil _ _)
    | false => exact Or.inr ⟨a, t, rfl, hp⟩

theorem drop_takeWhile_empty {α : Type} (p : α → Bool) (l : List α)
    (h : (l.drop (l.takeWhile p).length).isEmpty = true) : ∀ x ∈ l, p x = true := by
  rw [drop_length_takeWhile, List.isEmpty_iff] at h
  exact fun x hx => List.dropWhile_eq_nil_iff.mp h x hx

theorem markerSegs_scan : ∀ (fuel : Nat) (cs : List Char), cs.length ≤ fuel →
    markerSegsOK ((markerSplitFuel fuel cs).1 ::
      (markerSplitFuel fuel cs).2.map (fun m => m.2)) := by
  intro fuel
  induction fuel with
  | zero =>
    intro cs hlen
    have hcs : cs = [] := List.length_eq_zero.mp (Nat.le_zero.mp hlen)
    subst hcs
    simp only [markerSplitFuel, List.map_nil]
    rw [markerSegsOK_single]
    exact leadSafe_nil
  | succ fuel ih =>
    intro cs hlen
    cases cs with
    | nil =>
      simp only [markerSplitFuel, List.map_nil]
      rw [markerSegsOK_single]
      exact leadSafe_nil
    | cons c rest =>
      simp only [markerSplitFuel]
      split_ifs with h1 h2
      · refine ⟨leadStrict_nil, ?_⟩
        refine ih _ ?_
        rw [List.length_drop]
        simp only [List.length_cons] at hlen ⊢
        omega
      · have hrec := markerSplit_reconstruct fuel rest
        refine markerSegsOK_cons_head c _ _
          (ih rest (by simp only [List.length_cons] at hlen; omega)) ?_
        intro a h
        have hfull : c :: rest = markerLead ++ (a ++
            ((markerSplitFuel fuel rest).2.map
              (fun m => markerLead ++ m.1 ++ ']' :: m.2)).flatten) := by
          conv_lhs => rw [show rest = (markerSplitFuel fuel rest).1 ++
            ((markerSplitFuel fuel rest).2.map
              (fun m => markerLead ++ m.1 ++ ']' :: m.2)).flatten from hrec]
          rw [← List.cons_append, h, List.append_assoc]
        have hAL : (c :: rest).drop 9 = a ++
            ((markerSplitFuel fuel rest).2.map
              (fun m => markerLead ++ m.1 ++ ']' :: m.2)).flatten := by
          rw [hfull, show (9 : Nat) = markerLead.length from by decide, List.drop_left]
        rcases not_and_or.mp h2 with hA | hB
        · have hA' : ((c :: rest).drop 9).takeWhile (fun d => d ≠ ']') = [] := by
            rcases Nat.eq_zero_or_pos
              ((((c :: rest).drop 9).takeWhile (fun d => d ≠ ']')).length) with hz | hp
            · exact List.length_eq_zero.mp hz
            · exact absurd hp hA
          rcases takeWhile_nil_cases _ _ hA' with hnil | ⟨x, t, hxt, hpx⟩
          · rw [hAL, List.append_eq_nil] at hnil
            obtain ⟨ha, hflat⟩ := hnil
            have hms : (markerSplitFuel fuel rest).2 = [] := flat_nil _ hflat
            constructor
            · intro _
              right
              rw [ha]
              simp
            · intro hne
              rw [hms] at hne
              simp at hne
          · simp only [ne_eq, decide_not, Bool.not_eq_false', decide_eq_true_eq] at hpx
            rw [hAL] at hxt
            cases ha : a with
            | nil =>
              rw [ha, List.nil_append] at hxt
              cases hms : (markerSplitFuel fuel rest).2 with
              | nil => rw [hms] at hxt; simp at hxt
              | cons m ms' =>
                exfalso
                have hh := flat_head m ms'
                rw [← hms, hxt] at hh
                simp only [List.head?_cons, Option.some.injEq] at hh
                rw [hpx] at hh
                exact absurd hh (by decide)
            | cons a0 a' =>
              rw [ha] at hxt
              simp only [List.cons_append] at hxt
              injection hxt with hx0 _
              have hhead : (a0 :: a').head? = some ']' := by
                rw [List.head?_cons, hx0, hpx]
              exact ⟨fun _ => Or.inl hhead, fun _ => hhead⟩
        · have hB' : (((c :: rest).drop 9).drop
              ((((c :: rest).drop 9).takeWhile (fun d => d ≠ ']')).length)).isEmpty = true :=
            not_not.mp hB
          have hall := drop_takeWhile_empty _ _ hB'
          have hnot : (']' : Char) ∉ (c :: rest).drop 9 := by
            intro hm
            have hq := hall ']' hm
            simp at hq
          rw [hAL] at hnot
          constructor
          · intro _
            right
            intro hm
            exact hnot (List.mem_append_left _ hm)
          · intro hne
            exfalso
            cases hms : (markerSplitFuel fuel rest).2 with
            | nil => rw [hms] at hne; simp at hne
            | cons m ms' =>
              apply hnot
              apply List.mem_append_right
              rw [hms]
              exact flat_rbrack _ (List.cons_ne_nil m ms')
      · have hrec := markerSplit_reconstruct fuel rest
        refine markerSegsOK_cons_head c _ _
          (ih rest (by simp only [List.length_cons] at hlen; omega)) ?_
        intro a h
        exfalso
        apply h1
        rw [List.isPrefixOf_iff_prefix]
        refine ⟨a ++ ((markerSplitFuel fuel rest).2.map
          (fun m => markerLead ++ m.1 ++ ']' :: m.2)).flatten, ?_⟩
        rw [← List.append_assoc, ← h, List.cons_append, ← hrec]

theorem supTag_head (i n : Nat) : ∃ t, supTag i n = '<' :: t := by
  unfold supTag
  rw [show ("<sup data-citation-instance=\"".toList : List Char) =
    '<' :: "sup data-citation-instance=\"".toList from by decide]
  exact ⟨"sup data-citation-instance=\"".toList ++ natStr i ++ "\">[".toList ++
    natStr n ++ "]</sup>".toList, by simp [List.cons_append]⟩

theorem supTag_last (i n : Nat) : (supTag i n).getLast? = some '>' := by
  unfold supTag
  rw [List.getLast?_append_of_ne_nil _ (by decide : ("]</sup>".toList : List Char) ≠ [])]
  decide

theorem render_safe : ∀ (ms : List (List Char × List Char)) (counter : Nat)
    (smap : List (String × Nat)) (s₀ : List Char),
    markerSegsOK (s₀ :: ms.map (fun m => m.2)) →
    leadSafe (s₀ ++ renderTail smap counter ms) := by
  intro ms
  induction ms with
  | nil =>
    intro counter smap s₀ hok
    simp only [List.map_nil] at hok
    rw [markerSegsOK_single] at hok
    simp only [renderTail, List.append_nil]
    exact hok
  | cons m ms' ih =>
    intro counter smap s₀ hok
    simp only [List.map_cons] at hok
    rw [markerSegsOK_cons₂] at hok
    obtain ⟨hs₀, hrest⟩ := hok
    have hR : leadSafe (m.2 ++ renderTail smap (counter + 1) ms') := ih (counter + 1) smap m.2 hrest
    simp only [renderTail]
    intro b a h
    simp only [List.append_assoc] at h
    rcases occ_split s₀ _ b markerLead a h with
      ⟨a₁, hm, ha⟩ | ⟨b₁, _, h2⟩ | ⟨L₁, L₂, hL, _, hL2, _, hY1⟩
    · have hh := hs₀ b a₁ hm
      cases a₁ with
      | nil => simp at hh
      | cons x a₁' =>
        left
        rw [ha, List.head?_append_of_ne_nil _ (List.cons_ne_nil x a₁')]
        exact hh
    · rcases occ_split (supTag counter (numberFor smap m.1)) _ b₁ markerLead a h2 with
        ⟨a₂, hm2, _⟩ | ⟨b₂, _, h3⟩ | ⟨L₁, L₂, hL, hL1, _, hX1, _⟩
      · exact absurd hm2 (supTag_no_lead _ _ b₁ a₂)
      · exact hR b₂ a h3
      · exfalso
        have h6 := supTag_last counter (numberFor smap m.1)
        rw [hX1, List.getLast?_append_of_ne_nil b₁ hL1] at h6
        have h7 : ('>' : Char) ∈ L₁ := List.mem_of_mem_getLast? h6
        have h8 : ('>' : Char) ∈ markerLead := by
          rw [hL]
          exact List.mem_append_left _ h7
        exact absurd h8 (by decide)
    · exfalso
      cases L₂ with
      | nil => exact hL2 rfl
      | cons y L₂' =>
        obtain ⟨t, hst⟩ := supTag_head counter (numberFor smap m.1)
        rw [hst] at hY1
        simp only [List.cons_append] at hY1
        injection hY1 with hy _
        have hyl : y ∈ markerLead := by rw [hL]; simp
        rw [← hy] at hyl
        exact absurd hyl (by decide)

theorem leadSafe_phraseFold : ∀ (phs : List String) (cs : List Char), leadSafe cs →
    leadSafe (phs.foldl (fun acc2 ph => jsReplacePhrase true ph.toList acc2) cs) := by
  intro phs
  induction phs with
  | nil => intro cs h; exact h
  | cons p ps ih =>
    intro cs h
    simp only [List.foldl_cons]
    exact ih _ (leadSafe_scan cs.length p.toList none cs h)

theorem leadSafe_phrasePass : ∀ (citations : List Citation) (cs : List Char),
    leadSafe cs → leadSafe (phrasePass citations cs) := by
  intro citations
  induction citations with
  | nil => intro cs h; exact h
  | cons ct cts ih =>
    intro cs h
    unfold phrasePass at ih ⊢
    simp only [List.foldl_cons]
    exact ih _ (leadSafe_phraseFold ct.highlight_phrases cs h)

theorem no_marker_of_leadSafe (cs : List Char) (h : leadSafe cs) :
    ¬ ∃ b inner a, cs = b ++ (markerLead ++ (inner ++ (']' :: a))) ∧
      inner ≠ [] ∧ ']' ∉ inner := by
  rintro ⟨b, inner, a, hdec, hne, hnin⟩
  rcases h b (inner ++ (']' :: a)) hdec with hh | hh
  · cases inner with
    | nil => exact hne rfl
    | cons x i' =>
      rw [List.head?_append_of_ne_nil _ (List.cons_ne_nil x i')] at hh
      simp only [List.head?_cons, Option.some.injEq] at hh
      apply hnin
      rw [← hh]
      exact List.mem_cons_self x i'
  · exact hh (List.mem_append_right _ (List.mem_cons_self _ _))

/-- **C8.**  `processResponse` replaces every complete `[SOURCE: …]` marker of
the final answer, in order of appearance, with a numbered `<sup>` reference:
(1) the answer decomposes into the scan's marker-free segments interleaved
with the scanned markers, in order; (2) the output is exactly the phrase
highlighting pass applied to those segments with the i-th marker (counting
from 0 in order of appearance) replaced by the tag
`<sup data-citation-instance="i">[n]</sup>`, so each occurrence carries a
distinct instance id; (3) markers naming the same source file receive the
same citation number `n`; (4) no text matching the marker regex
`\[SOURCE: ([^\]]+)\]` survives anywhere in the final output. -/
theorem processResponse_markers (finalAnswer : String) (citations : List Citation) :
    (finalAnswer.toList = (markerSplit finalAnswer.toList).1 ++
      (((markerSplit finalAnswer.toList).2.map
        (fun m => markerLead ++ m.1 ++ ']' :: m.2)).flatten)) ∧
    ((processResponse finalAnswer citations).toList =
      phrasePass citations ((markerSplit finalAnswer.toList).1 ++
        renderTail (buildSourceMap citations) 0 (markerSplit finalAnswer.toList).2)) ∧
    (∀ m₁ m₂, m₁ ∈ (markerSplit finalAnswer.toList).2 →
      m₂ ∈ (markerSplit finalAnswer.toList).2 →
      sourceFileOf m₁.1 = sourceFileOf m₂.1 →
      numberFor (buildSourceMap citations) m₁.1 =
        numberFor (buildSourceMap citations) m₂.1) ∧
    (¬ ∃ b inner a, (processResponse finalAnswer citations).toList =
      b ++ (markerLead ++ (inner ++ (']' :: a))) ∧ inner ≠ [] ∧ ']' ∉ inner) := by
  have hPR : (processResponse finalAnswer citations).toList =
      phrasePass citations ((markerSplit finalAnswer.toList).1 ++
        renderTail (buildSourceMap citations) 0 (markerSplit finalAnswer.toList).2) := by
    have h1 := replaceMarkers_eq_render (buildSourceMap citations)
      finalAnswer.toList.length 0 finalAnswer.toList
    simp only [processResponse, markerSplit]
    rw [h1]
    rfl
  refine ⟨markerSplit_reconstruct _ _, hPR, ?_, ?_⟩
  · intro m₁ m₂ _ _ hsf
    unfold numberFor
    rw [hsf]
  · have hsegs := markerSegs_scan finalAnswer.toList.length finalAnswer.toList le_rfl
    have hsafe1 := render_safe (markerSplit finalAnswer.toList).2 0 (buildSourceMap citations)
      (markerSplit finalAnswer.toList).1 hsegs
    have hsafe2 := leadSafe_phrasePass citations _ hsafe1
    intro hex
    obtain ⟨b, inner, a, hdec, hi1, hi2⟩ := hex
    rw [hPR] at hdec
    exact no_marker_of_leadSafe _ hsafe2 ⟨b, inner, a, hdec, hi1, hi2⟩

end NotebookLm
